import Mathlib

/-!
Verification of the IFT server conformance-test core: a shallow embedding of
`fast_hash.py`, `integer_list.py`, `axis_util.py`, `font_util.py`,
`sample_requests.py` and the checker skeleton of `response_checker.py`,
together with theorems settling the specification claims about them.

Machine integers are modelled as `Nat`/`Int` with explicit reduction
modulo `2 ^ 64` where the Python code relies on 64-bit wraparound.
-/

namespace IFT

/-! ## fast_hash.py -/

/-- Constant `SEED` from `fast_hash.py`. -/
def SEED : Nat := 0x11743e80f437ffe6

/-- Constant `M` from `fast_hash.py`. -/
def M : Nat := 0x880355f21e6d1965

/-- `_uint64(value)`: reduce to an unsigned 64 bit value. -/
def _uint64 (value : Nat) : Nat := value % 18446744073709551616

/-- `_mix(value)` from `fast_hash.py`. -/
def _mix (value : Nat) : Nat :=
  let v1 := value ^^^ (value >>> 23)
  let v2 := _uint64 (v1 * 0x2127599bf4325c37)
  v2 ^^^ (v2 >>> 47)

/-- `int.from_bytes(bs, byteorder='little')`: the first byte is least
significant. -/
def fromLE (bs : List Nat) : Nat := bs.foldr (fun b acc => b + 256 * acc) 0

/-- The chunk loop of `compute`: consume the data eight bytes at a time
(`for i in range(0, len(data) - 7, 8)`), then handle the trailing
`len(data) % 8` bytes, zero padded on the high end, exactly as the Python
code does. -/
def computeLoop (h : Nat) : List Nat → Nat
  | b0 :: b1 :: b2 :: b3 :: b4 :: b5 :: b6 :: b7 :: rest =>
      computeLoop (_uint64 ((h ^^^ _mix (fromLE [b0, b1, b2, b3, b4, b5, b6, b7])) * M)) rest
  | rest =>
      if rest.isEmpty then _mix h
      else
        _mix (_uint64 ((h ^^^
          _mix (fromLE (rest ++ List.replicate (8 - rest.length) 0))) * M))

/-- `compute(data)` from `fast_hash.py`: the fast hash of a byte array. -/
def compute (data : List Nat) : Nat :=
  computeLoop (SEED ^^^ _uint64 (data.length * M)) data

/-! Reference formulation of the fasthash-64 algorithm, written from the
specification's words: split the input into its full little-endian 8-byte
chunks, fold each into the hash, and finish with the zero-padded tail when
the length is not a multiple of 8. -/

/-- The full 8-byte chunks of a byte sequence, in order. -/
def chunks8 : List Nat → List (List Nat)
  | b0 :: b1 :: b2 :: b3 :: b4 :: b5 :: b6 :: b7 :: rest =>
      [b0, b1, b2, b3, b4, b5, b6, b7] :: chunks8 rest
  | _ => []

/-- The trailing `length % 8` bytes of a byte sequence. -/
def tail8 : List Nat → List Nat
  | _ :: _ :: _ :: _ :: _ :: _ :: _ :: _ :: rest => tail8 rest
  | l => l

/-- Reference fasthash-64 definition, following the specification text:
`h = SEED xor (len * M mod 2^64)`; each full little-endian chunk `v` folds in
as `h = (h xor mix v) * M mod 2^64`; if the length is a multiple of 8 the
result is `mix h`, otherwise the trailing bytes are zero padded on the high
end, interpreted little-endian and folded the same way before the final mix. -/
def fasthashRef (b : List Nat) : Nat :=
  let h0 := SEED ^^^ (b.length * M % 2 ^ 64)
  let h := (chunks8 b).foldl (fun h c => (h ^^^ _mix (fromLE c)) * M % 2 ^ 64) h0
  if b.length % 8 = 0 then _mix h
  else
    _mix ((h ^^^ _mix (fromLE (tail8 b ++ List.replicate (8 - (tail8 b).length) 0))) * M % 2 ^ 64)

theorem _uint64_lt (v : Nat) : _uint64 v < 2 ^ 64 := by
  have : (18446744073709551616 : Nat) = 2 ^ 64 := by norm_num
  unfold _uint64
  omega

theorem shiftRight_le_self (v n : Nat) : v >>> n ≤ v := by
  rw [Nat.shiftRight_eq_div_pow]
  exact Nat.div_le_self _ _

theorem _mix_lt (v : Nat) (h : v < 2 ^ 64) : _mix v < 2 ^ 64 := by
  unfold _mix
  have h2 := _uint64_lt ((v ^^^ v >>> 23) * 0x2127599bf4325c37)
  exact Nat.xor_lt_two_pow h2 (lt_of_le_of_lt (shiftRight_le_self _ 47) h2)

theorem computeLoop_lt (h : Nat) (bs : List Nat) (hh : h < 2 ^ 64) :
    computeLoop h bs < 2 ^ 64 := by
  induction h, bs using computeLoop.induct with
  | case1 h b0 b1 b2 b3 b4 b5 b6 b7 rest ih =>
      rw [computeLoop]
      exact ih (_uint64_lt _)
  | case2 h rest hrest hemp =>
      rw [computeLoop.eq_def]
      split
      · exact absurd rfl (fun hx => hrest _ _ _ _ _ _ _ _ _ hx)
      · rw [if_pos hemp]
        exact _mix_lt _ hh
  | case3 h rest hrest hemp =>
      rw [computeLoop.eq_def]
      split
      · exact absurd rfl (fun hx => hrest _ _ _ _ _ _ _ _ _ hx)
      · rw [if_neg hemp]
        exact _mix_lt _ (_uint64_lt _)

theorem compute_lt (data : List Nat) : compute data < 2 ^ 64 := by
  unfold compute
  refine computeLoop_lt _ _ ?_
  exact Nat.xor_lt_two_pow (by unfold SEED; norm_num) (_uint64_lt _)

theorem notCons8_length {rest : List Nat}
    (hrest : ∀ (b0 b1 b2 b3 b4 b5 b6 b7 : ℕ) (t : List ℕ),
      rest = b0 :: b1 :: b2 :: b3 :: b4 :: b5 :: b6 :: b7 :: t → False) :
    rest.length < 8 := by
  rcases rest with _ | ⟨a, _ | ⟨b, _ | ⟨c, _ | ⟨d, _ | ⟨e, _ | ⟨f, _ | ⟨g, _ | ⟨i, t⟩⟩⟩⟩⟩⟩⟩⟩
  all_goals first
    | exact absurd rfl (fun hx => hrest _ _ _ _ _ _ _ _ _ hx)
    | simp [List.length]

theorem chunks8_small {rest : List Nat} (h : rest.length < 8) : chunks8 rest = [] := by
  rw [chunks8.eq_def]
  split
  · exfalso
    simp at h
    omega
  · rfl

theorem tail8_small {rest : List Nat} (h : rest.length < 8) : tail8 rest = rest := by
  rw [tail8.eq_def]
  split
  · exfalso
    simp at h
    omega
  · rfl

theorem computeLoop_eq_ref (h : Nat) (bs : List Nat) :
    computeLoop h bs =
      (if bs.length % 8 = 0 then
        _mix ((chunks8 bs).foldl (fun h c => (h ^^^ _mix (fromLE c)) * M % 2 ^ 64) h)
      else
        _mix (((chunks8 bs).foldl (fun h c => (h ^^^ _mix (fromLE c)) * M % 2 ^ 64) h ^^^
          _mix (fromLE (tail8 bs ++ List.replicate (8 - (tail8 bs).length) 0))) * M % 2 ^ 64)) := by
  induction h, bs using computeLoop.induct with
  | case1 h b0 b1 b2 b3 b4 b5 b6 b7 rest ih =>
      rw [computeLoop, chunks8, tail8]
      simp only [List.length_cons, List.foldl_cons]
      rw [ih]
      have hmod : (rest.length + 1 + 1 + 1 + 1 + 1 + 1 + 1 + 1) % 8 = rest.length % 8 := by
        omega
      rw [hmod]
      rfl
  | case2 h rest hrest hemp =>
      have hsmall := notCons8_length hrest
      have h0 : rest = [] := List.isEmpty_iff.mp hemp
      subst h0
      rw [computeLoop.eq_def]
      simp [chunks8, _uint64]
  | case3 h rest hrest hemp =>
      have hsmall := notCons8_length hrest
      have hpos : 0 < rest.length := by
        cases rest
        · simp at hemp
        · simp
      rw [computeLoop.eq_def]
      split
      · exfalso
        simp at hsmall
        omega
      · rw [chunks8_small hsmall, tail8_small hsmall]
        simp only [List.foldl_nil]
        have hmod : ¬rest.length % 8 = 0 := by omega
        rw [if_neg (by simpa using hemp), if_neg hmod]
        rfl

/-- C1: `fast_hash.compute` equals the fasthash-64 reference definition built
from the specification's words, it is a pure function of the byte list with
values in `[0, 2^64)`, and it matches the two fixed test vectors. -/
theorem C1_compute_correct :
    (∀ b : List Nat, compute b = fasthashRef b) ∧
    (∀ b : List Nat, compute b < 2 ^ 64) ∧
    compute [0x0f, 0x7b, 0x5a, 0xe5] = 0xe5e0d1dc89eaa189 ∧
    compute [0x1d, 0xf4, 0x02, 0x5e, 0xd3, 0xb8, 0x43, 0x21, 0x3b, 0xae, 0xde] =
      0xb31e9c70768205fb := by
  refine ⟨?_, compute_lt, by decide, by decide⟩
  intro b
  unfold compute fasthashRef
  rw [computeLoop_eq_ref]
  have : _uint64 (b.length * M) = b.length * M % 2 ^ 64 := rfl
  rw [this]

/-! ## integer_list.py -/

/-- The distinct `ConformanceException` raises in `integer_list.py`; all carry
the conformance id `conform-uintbase128-illegal`. -/
inductive DecodeErr where
  | leadingZero
  | overflow
  | tooLong
  | outOfBounds
deriving DecidableEq, Repr

/-- `decode_zig_zag(value)` from `integer_list.py`.  The Python float
divisions are exact on every value the decoder can produce (magnitudes are
below `2^32 < 2^53`), so integer division is used. -/
def decode_zig_zag (value : Nat) : Int :=
  if value &&& 1 ≠ 0 then -(((value : Int) + 1) / 2) else (value : Int) / 2

/-- The `while bytes_read < 5` loop of `Decoder.next_int`; `fuel` is
`5 - bytes_read`.  Reading a byte past the end of `encoded` raises the
out-of-bounds error of `Decoder.read_byte`. -/
def nextIntAux (encoded : List Nat) : Nat → Nat → Nat → Nat → Except DecodeErr (Int × Nat)
  | _, _, _, 0 => .error .tooLong
  | idx, value, bytesRead, fuel + 1 =>
    match encoded.get? idx with
    | none => .error .outOfBounds
    | some nextByte =>
      if bytesRead + 1 == 1 && nextByte == 0x80 then .error .leadingZero
      else if value &&& 0xFE000000 != 0 then .error .overflow
      else
        let value2 := (value <<< 7) ||| (nextByte &&& 0x7F)
        if nextByte &&& 0x80 == 0 then .ok (decode_zig_zag value2, idx + 1)
        else nextIntAux encoded (idx + 1) value2 (bytesRead + 1) fuel

/-- `Decoder.next_int`, acting on the byte list and the cursor index and
returning the decoded integer together with the new cursor. -/
def nextInt (encoded : List Nat) (idx : Nat) : Except DecodeErr (Int × Nat) :=
  if idx < encoded.length then nextIntAux encoded idx 0 0 5
  else .ok (0, idx)

theorem nextIntAux_ok_idx {encoded : List Nat} :
    ∀ (fuel idx value br : Nat) (v : Int) (idx' : Nat),
      nextIntAux encoded idx value br fuel = .ok (v, idx') →
      idx < idx' ∧ idx' ≤ idx + fuel ∧ idx' ≤ encoded.length := by
  intro fuel
  induction fuel with
  | zero => intro idx value br v idx' h; simp [nextIntAux] at h
  | succ fuel ih =>
      intro idx value br v idx' h
      rw [nextIntAux] at h
      match hidx : encoded.get? idx with
      | none => rw [hidx] at h; simp at h
      | some b =>
          rw [hidx] at h
          dsimp only at h
          have hlen : idx < encoded.length := (List.get?_eq_some.mp hidx).1
          by_cases h1 : (br + 1 == 1 && b == 0x80) = true
          · rw [if_pos h1] at h; simp at h
          · rw [if_neg h1] at h
            by_cases h2 : (value &&& 0xFE000000 != 0) = true
            · rw [if_pos h2] at h; simp at h
            · rw [if_neg h2] at h
              by_cases h3 : (b &&& 0x80 == 0) = true
              · rw [if_pos h3] at h
                simp only [Except.ok.injEq, Prod.mk.injEq] at h
                omega
              · rw [if_neg h3] at h
                have := ih _ _ _ _ _ h
                omega

theorem nextInt_ok_idx {encoded : List Nat} {idx : Nat} {v : Int} {idx' : Nat}
    (hlt : idx < encoded.length) (h : nextInt encoded idx = .ok (v, idx')) :
    idx < idx' ∧ idx' ≤ idx + 5 ∧ idx' ≤ encoded.length := by
  rw [nextInt, if_pos hlt] at h
  exact nextIntAux_ok_idx 5 idx 0 0 v idx' h

/-- The `while decoder.has_more(): deltas.append(decoder.next_int())` loop of
`decode`, starting at cursor `idx`. -/
def decodeDeltas (encoded : List Nat) (idx : Nat) : Except DecodeErr (List Int) :=
  if h : idx < encoded.length then
    match hn : nextInt encoded idx with
    | .error e => .error e
    | .ok (v, idx') =>
      match decodeDeltas encoded idx' with
      | .error e => .error e
      | .ok rest => .ok (v :: rest)
  else .ok []
termination_by encoded.length - idx
decreasing_by
  have := nextInt_ok_idx h hn
  omega

/-- The final running-sum loop of `decode`: `last_value = delta + last_value`. -/
def runningSums : List Int → Int → List Int
  | [], _ => []
  | d :: rest, last => (d + last) :: runningSums rest (d + last)

/-- `decode(encoded_bytes)` from `integer_list.py`. -/
def decode (encoded : List Nat) : Except DecodeErr (List Int) :=
  match decodeDeltas encoded 0 with
  | .error e => .error e
  | .ok deltas => .ok (runningSums deltas 0)

/-! Specification-side description of the UIntBase128 wire grammar: a value is
a maximal run of continuation-tagged octets ended by an octet with the high
bit clear; its magnitude is the big-endian concatenation of the low 7 bits of
each octet. -/

/-- Split the leading UIntBase128 value (its octets) off a byte stream;
`none` when the stream ends inside a value (truncation). -/
def takeToken : List Nat → Option (List Nat × List Nat)
  | [] => none
  | b :: rest =>
    if b &&& 0x80 == 0 then some ([b], rest)
    else
      match takeToken rest with
      | some (t, r) => some (b :: t, r)
      | none => none

theorem takeToken_spec :
    ∀ {l t r : List Nat}, takeToken l = some (t, r) → l = t ++ r ∧ t ≠ [] := by
  intro l
  induction l with
  | nil => intro t r h; simp [takeToken] at h
  | cons b rest ih =>
      intro t r h
      rw [takeToken] at h
      by_cases hb : (b &&& 0x80 == 0) = true
      · rw [if_pos hb] at h
        simp only [Option.some.injEq, Prod.mk.injEq] at h
        obtain ⟨h1, h2⟩ := h
        subst h1; subst h2
        exact ⟨rfl, by simp⟩
      · rw [if_neg hb] at h
        match ht : takeToken rest with
        | none => rw [ht] at h; simp at h
        | some (t', r') =>
            rw [ht] at h
            simp only [Option.some.injEq, Prod.mk.injEq] at h
            obtain ⟨h1, h2⟩ := h
            subst h1; subst h2
            obtain ⟨ih1, _⟩ := ih ht
            exact ⟨by simp [ih1], by simp⟩

/-- Worker for `splitTokens`: `cur` holds the octets of the value currently
being read. -/
def splitTokensAux (cur : List Nat) : List Nat → Option (List (List Nat))
  | [] => if cur.isEmpty then some [] else none
  | b :: rest =>
    if b &&& 0x80 == 0 then
      match splitTokensAux [] rest with
      | some toks => some ((cur ++ [b]) :: toks)
      | none => none
    else splitTokensAux (cur ++ [b]) rest

/-- Tokenize a whole byte stream into UIntBase128 values; `none` exactly when
the stream is truncated inside a value. -/
def splitTokens (bs : List Nat) : Option (List (List Nat)) :=
  splitTokensAux [] bs

theorem splitTokensAux_takeToken :
    ∀ (l : List Nat) (cur : List Nat), ¬(l = [] ∧ cur = []) →
      splitTokensAux cur l =
        match takeToken l with
        | none => none
        | some (t, r) => (splitTokensAux [] r).map (fun ts => (cur ++ t) :: ts) := by
  intro l
  induction l with
  | nil =>
      intro cur hc
      have : ¬cur.isEmpty := by
        cases cur
        · exact absurd ⟨rfl, rfl⟩ hc
        · simp
      simp [splitTokensAux, takeToken, this]
  | cons b rest ih =>
      intro cur _
      rw [splitTokensAux, takeToken]
      by_cases hb : (b &&& 0x80 == 0) = true
      · rw [if_pos hb, if_pos hb]
        cases hs : splitTokensAux [] rest with
        | none => simp [hs]
        | some toks => simp [hs]
      · rw [if_neg hb, if_neg hb]
        by_cases hrest : rest = []
        · subst hrest
          simp [splitTokensAux, takeToken]
        · rw [ih (cur ++ [b]) (by simp [hrest])]
          cases ht : takeToken rest with
          | none => rfl
          | some tr =>
              obtain ⟨t', r'⟩ := tr
              simp

/-- One-token unfolding of `splitTokens` on a nonempty stream. -/
theorem splitTokens_cons (b : Nat) (rest : List Nat) :
    splitTokens (b :: rest) =
      match takeToken (b :: rest) with
      | none => none
      | some (t, r) => (splitTokens r).map (fun ts => t :: ts) := by
  rw [splitTokens, splitTokensAux_takeToken (b :: rest) [] (by simp)]
  cases ht : takeToken (b :: rest) with
  | none => rfl
  | some tr =>
      obtain ⟨t, r⟩ := tr
      rfl

/-- The unsigned magnitude of a UIntBase128 octet run: big-endian base-128. -/
def magnitude (t : List Nat) : Nat := t.foldl (fun acc b => acc * 128 + b % 128) 0

/-- The conditions the decoder imposes on a single encoded value, as the
specification states them: at most 5 octets, the first octet is not the
degenerate continuation byte `0x80`, and the magnitude fits in 32 bits. -/
def goodToken (t : List Nat) : Bool :=
  decide (t.length ≤ 5) && (t.head? != some 0x80) && decide (magnitude t ≤ 0xFFFFFFFF)

/-- Specification-side decoder: tokenize, validate every value, zigzag-decode
the magnitudes. -/
def specDeltas (bs : List Nat) : Option (List Int) :=
  match splitTokens bs with
  | none => none
  | some toks =>
    if toks.all goodToken then some (toks.map fun t => decode_zig_zag (magnitude t))
    else none

/-! Bit-arithmetic bridge lemmas. -/

theorem or_eq_add_of_and_eq_zero : ∀ (a b : Nat), a &&& b = 0 → a ||| b = a + b := by
  intro a
  induction a using Nat.binaryRec with
  | z => intro b _; simp
  | f a0 a' ih =>
      intro b h
      rw [← Nat.bit_decomp b] at h ⊢
      rw [Nat.land_bit] at h
      rw [Nat.lor_bit]
      rw [Nat.bit_eq_zero_iff] at h
      obtain ⟨h1, h2⟩ := h
      rw [ih _ h1]
      simp only [Nat.bit_val]
      cases a0 <;> cases hb : b.bodd <;> simp_all <;> omega

theorem shiftLeft_or_low (v b n : Nat) (hb : b < 2 ^ n) : (v <<< n) ||| b = v * 2 ^ n + b := by
  rw [Nat.shiftLeft_eq]
  rw [or_eq_add_of_and_eq_zero]
  apply Nat.eq_of_testBit_eq
  intro i
  simp only [Nat.testBit_and, Nat.zero_testBit]
  rcases lt_or_le i n with hin | hin
  · have : (v * 2 ^ n).testBit i = false := by
      rw [← Nat.shiftLeft_eq, Nat.testBit_shiftLeft]
      simp [Nat.not_le.mpr hin]
    simp [this]
  · have : b.testBit i = false :=
      Nat.testBit_lt_two_pow (lt_of_lt_of_le hb (Nat.pow_le_pow_right (by norm_num) hin))
    simp [this]

theorem and127 (b : Nat) : b &&& 0x7F = b % 128 := by
  have := Nat.and_pow_two_sub_one_eq_mod b 7
  norm_num at this
  exact this

/-- The updated accumulator of the decoder loop in arithmetic form. -/
theorem value2_eq (value b : Nat) :
    (value <<< 7) ||| (b &&& 0x7F) = value * 128 + b % 128 := by
  rw [and127]
  have : (128 : Nat) = 2 ^ 7 := by norm_num
  rw [this]
  exact shiftLeft_or_low value (b % 2 ^ 7) 7 (Nat.mod_lt _ (by norm_num))

theorem testBit_mask :
    ∀ i, (0xFE000000 : Nat).testBit i = (decide (25 ≤ i) && decide (i < 32)) := by
  intro i
  rcases lt_or_le i 32 with h | h
  · interval_cases i <;> decide
  · have h1 : (0xFE000000 : Nat).testBit i = false :=
      Nat.testBit_lt_two_pow (lt_of_lt_of_le (by norm_num) (Nat.pow_le_pow_right (by norm_num) h))
    simp [h1]
    omega

theorem maskRep (v : Nat) : v &&& 0xFE000000 = (v / 2 ^ 25 % 2 ^ 7) * 2 ^ 25 := by
  apply Nat.eq_of_testBit_eq
  intro i
  rw [Nat.testBit_and, testBit_mask]
  rw [show (v / 2 ^ 25 % 2 ^ 7) * 2 ^ 25 = (v / 2 ^ 25 % 2 ^ 7) <<< 25 by rw [Nat.shiftLeft_eq]]
  rw [Nat.testBit_shiftLeft]
  rcases lt_or_le i 25 with h | h
  · simp [Nat.not_le.mpr h]
  · rw [Nat.testBit_mod_two_pow]
    rw [← Nat.shiftRight_eq_div_pow, Nat.testBit_shiftRight]
    have hi : 25 + (i - 25) = i := by omega
    rw [hi]
    have heq : decide (i < 32) = decide (i - 25 < 7) := decide_eq_decide.mpr (by omega)
    rw [heq, decide_eq_true_iff.mpr h]
    simp [Bool.and_comm]

/-- The decoder's overflow test `value & 0xFE000000`, for the values the loop
actually checks (below `2^28`), is exactly the bound `value < 2^25`. -/
theorem maskCheck {v : Nat} (hv : v < 2 ^ 28) : v &&& 0xFE000000 = 0 ↔ v < 2 ^ 25 := by
  rw [maskRep]
  constructor
  · intro h
    have h2 : v / 2 ^ 25 % 2 ^ 7 = 0 := by
      by_contra hne
      have := Nat.pos_of_ne_zero hne
      omega
    have h3 : v / 2 ^ 25 < 2 ^ 3 := by omega
    have : v / 2 ^ 25 = 0 := by omega
    omega
  · intro h
    rw [Nat.div_eq_of_lt h]
    norm_num

/-! Accumulator-generalized forms of the per-value conditions, used to relate
the decoder loop to the token grammar. -/

/-- Big-endian base-128 accumulation of a token on top of `value`. -/
def magAux (value : Nat) (t : List Nat) : Nat :=
  t.foldl (fun acc b => acc * 128 + b % 128) value

/-- The sequence of overflow checks the decoder performs while consuming a
token, starting from accumulator `value`. -/
def noOvf (value : Nat) : List Nat → Bool
  | [] => true
  | c :: rest => (value &&& 0xFE000000 == 0) && noOvf (value * 128 + c % 128) rest

/-- All conditions under which the decoder loop accepts a token, given the
remaining fuel, the bytes already read and the accumulator. -/
def tokCond (fuel br value : Nat) (t : List Nat) : Bool :=
  decide (t.length ≤ fuel) &&
    (if br = 0 then t.head? != some 0x80 else true) &&
    noOvf value t

theorem magnitude_eq_magAux (t : List Nat) : magnitude t = magAux 0 t := rfl

/-- Boolean form of `maskCheck`. -/
theorem maskCheckB (v : Nat) (hv : v < 2 ^ 28) :
    (v &&& 0xFE000000 == 0) = decide (v < 2 ^ 25) := by
  by_cases h : v < 2 ^ 25
  · have h1 : v &&& 0xFE000000 = 0 := (maskCheck hv).mpr h
    rw [h1]
    have : ((0 : Nat) == 0) = true := by decide
    rw [this]
    symm
    rw [decide_eq_true_eq]
    omega
  · have hne : ¬(v &&& 0xFE000000 = 0) := fun hx => h ((maskCheck hv).mp hx)
    rw [beq_eq_false_iff_ne.mpr hne]
    simp only [false_eq_decide_iff, Nat.not_lt]
    omega

/-- On tokens of at most five octets, the decoder's running overflow checks
accept exactly the tokens whose magnitude fits in 32 bits. -/
theorem noOvf_eq_mag :
    ∀ t : List Nat, t.length ≤ 5 → noOvf 0 t = decide (magnitude t ≤ 0xFFFFFFFF) := by
  intro t ht
  match t with
  | [] => decide
  | [c1] =>
      simp only [noOvf, magnitude, List.foldl, Bool.and_true]
      rw [maskCheckB 0 (by omega)]
      exact decide_eq_decide.mpr (by omega)
  | [c1, c2] =>
      simp only [noOvf, magnitude, List.foldl, Bool.and_true]
      rw [maskCheckB 0 (by omega),
        maskCheckB (0 * 128 + c1 % 128) (by omega),
        ← Bool.decide_and]
      exact decide_eq_decide.mpr (by omega)
  | [c1, c2, c3] =>
      simp only [noOvf, magnitude, List.foldl, Bool.and_true]
      rw [maskCheckB 0 (by omega),
        maskCheckB (0 * 128 + c1 % 128) (by omega),
        maskCheckB ((0 * 128 + c1 % 128) * 128 + c2 % 128) (by omega),
        ← Bool.decide_and, ← Bool.decide_and]
      exact decide_eq_decide.mpr (by omega)
  | [c1, c2, c3, c4] =>
      simp only [noOvf, magnitude, List.foldl, Bool.and_true]
      rw [maskCheckB 0 (by omega),
        maskCheckB (0 * 128 + c1 % 128) (by omega),
        maskCheckB ((0 * 128 + c1 % 128) * 128 + c2 % 128) (by omega),
        maskCheckB (((0 * 128 + c1 % 128) * 128 + c2 % 128) * 128 + c3 % 128) (by omega),
        ← Bool.decide_and, ← Bool.decide_and, ← Bool.decide_and]
      exact decide_eq_decide.mpr (by omega)
  | [c1, c2, c3, c4, c5] =>
      simp only [noOvf, magnitude, List.foldl, Bool.and_true]
      rw [maskCheckB 0 (by omega),
        maskCheckB (0 * 128 + c1 % 128) (by omega),
        maskCheckB ((0 * 128 + c1 % 128) * 128 + c2 % 128) (by omega),
        maskCheckB (((0 * 128 + c1 % 128) * 128 + c2 % 128) * 128 + c3 % 128) (by omega),
        maskCheckB ((((0 * 128 + c1 % 128) * 128 + c2 % 128) * 128 + c3 % 128) * 128 + c4 % 128)
          (by omega),
        ← Bool.decide_and, ← Bool.decide_and, ← Bool.decide_and, ← Bool.decide_and]
      exact decide_eq_decide.mpr (by omega)
  | _ :: _ :: _ :: _ :: _ :: _ :: _ =>
      exfalso
      simp at ht

/-- The acceptance condition of a fresh decoder loop run (`fuel = 5`,
`bytes_read = 0`, accumulator `0`) is exactly `goodToken`. -/
theorem tokCond_eq_goodToken (t : List Nat) : tokCond 5 0 0 t = goodToken t := by
  by_cases hl : t.length ≤ 5
  · simp only [tokCond, goodToken, noOvf_eq_mag t hl, if_pos trivial]
  · simp [tokCond, goodToken, hl]

/-- The decoder loop, characterized against the token grammar: it succeeds
exactly on the leading token of the remaining bytes when that token meets the
accumulated conditions, producing the zigzag-decoded accumulated magnitude and
advancing the cursor by the token length. -/
theorem nextIntAux_char (encoded : List Nat) :
    ∀ (fuel idx value br : Nat),
      (nextIntAux encoded idx value br fuel).toOption =
        (match takeToken (encoded.drop idx) with
        | none => none
        | some (t, _r) =>
          if tokCond fuel br value t then
            some (decode_zig_zag (magAux value t), idx + t.length)
          else none) := by
  intro fuel
  induction fuel with
  | zero =>
      intro idx value br
      cases ht : takeToken (encoded.drop idx) with
      | none => rfl
      | some tr =>
          obtain ⟨t, r⟩ := tr
          have hne := (takeToken_spec ht).2
          have hlen : ¬(t.length ≤ 0) := by
            have := List.length_pos.mpr hne
            omega
          simp [nextIntAux, Except.toOption, tokCond, hlen]
  | succ fuel ih =>
      intro idx value br
      rw [nextIntAux]
      cases hidx : encoded.get? idx with
      | none =>
          have hlen : encoded.length ≤ idx := List.get?_eq_none.mp hidx
          have hdrop : encoded.drop idx = [] := List.drop_eq_nil_of_le hlen
          rw [hdrop]
          rfl
      | some b =>
          have hlen : idx < encoded.length := (List.get?_eq_some.mp hidx).1
          have hb' : encoded[idx] = b := by
            obtain ⟨h1, h2⟩ := List.get?_eq_some.mp hidx
            simpa [List.get_eq_getElem] using h2
          have hdrop : encoded.drop idx = b :: encoded.drop (idx + 1) := by
            rw [List.drop_eq_getElem_cons hlen, hb']
          rw [hdrop]
          dsimp only
          rw [takeToken]
          by_cases hA : (br + 1 == 1 && b == 0x80) = true
          · rw [if_pos hA]
            simp only [Bool.and_eq_true, beq_iff_eq] at hA
            obtain ⟨hbr1, hb80⟩ := hA
            have hbr : br = 0 := by omega
            have hcont : ¬(b &&& 0x80 == 0) = true := by
              subst hb80; decide
            rw [if_neg hcont]
            cases ht : takeToken (encoded.drop (idx + 1)) with
            | none => rfl
            | some tr =>
                obtain ⟨t', r'⟩ := tr
                simp [Except.toOption, tokCond, hbr, hb80]
          · rw [if_neg hA]
            by_cases hB : (value &&& 0xFE000000 != 0) = true
            · rw [if_pos hB]
              have hmask : (value &&& 0xFE000000 == 0) = false := by
                simpa using hB
              by_cases hC : (b &&& 0x80 == 0) = true
              · rw [if_pos hC]
                simp [Except.toOption, tokCond, noOvf, hmask]
              · rw [if_neg hC]
                cases ht : takeToken (encoded.drop (idx + 1)) with
                | none => rfl
                | some tr =>
                    obtain ⟨t', r'⟩ := tr
                    simp [Except.toOption, tokCond, noOvf, hmask]
            · rw [if_neg hB]
              have hmask : (value &&& 0xFE000000 == 0) = true := by
                simpa using hB
              have hmid : ∀ t0 : List Nat,
                  (if br = 0 then ((b :: t0).head? != some 0x80) else true) = true := by
                intro t0
                by_cases hbr0 : br = 0
                · rw [if_pos hbr0]
                  subst hbr0
                  have hb80 : b ≠ 0x80 := by
                    intro hx
                    subst hx
                    simp at hA
                  simp [hb80]
                · rw [if_neg hbr0]
              by_cases hC : (b &&& 0x80 == 0) = true
              · rw [if_pos hC, if_pos hC]
                dsimp only
                have hcond : tokCond (fuel + 1) br value [b] = true := by
                  have h2 := hmid []
                  simp only [tokCond, noOvf, hmask, h2, Bool.and_true, Bool.true_and]
                  simp
                rw [hcond]
                simp [Except.toOption, magAux, value2_eq]
              · rw [if_neg hC, if_neg hC]
                rw [ih (idx + 1) ((value <<< 7) ||| (b &&& 0x7F)) (br + 1)]
                cases ht : takeToken (encoded.drop (idx + 1)) with
                | none => rfl
                | some tr =>
                    obtain ⟨t', r'⟩ := tr
                    dsimp only
                    have hcond : tokCond (fuel + 1) br value (b :: t') =
                        tokCond fuel (br + 1) ((value <<< 7) ||| (b &&& 0x7F)) t' := by
                      have h1 : decide (t'.length + 1 ≤ fuel + 1) = decide (t'.length ≤ fuel) :=
                        decide_eq_decide.mpr (by omega)
                      simp only [tokCond, noOvf, hmask, Bool.true_and, hmid t',
                        List.length_cons, value2_eq, h1]
                      simp
                    have hmag : magAux value (b :: t') =
                        magAux ((value <<< 7) ||| (b &&& 0x7F)) t' := by
                      simp [magAux, value2_eq]
                    have hl : idx + (b :: t').length = idx + 1 + t'.length := by
                      simp
                      omega
                    rw [hcond, hmag, hl]

/-- One-token unfolding of `specDeltas` on a nonempty stream. -/
theorem specDeltas_cons (b : Nat) (rest : List Nat) :
    specDeltas (b :: rest) =
      match takeToken (b :: rest) with
      | none => none
      | some (t, r) =>
        if goodToken t then
          (specDeltas r).map (fun ds => decode_zig_zag (magnitude t) :: ds)
        else none := by
  rw [specDeltas, splitTokens_cons]
  cases ht : takeToken (b :: rest) with
  | none => rfl
  | some tr =>
      obtain ⟨t, r⟩ := tr
      dsimp only
      rw [specDeltas]
      cases hs : splitTokens r with
      | none =>
          dsimp only [Option.map_none]
          cases hg : goodToken t <;> rfl
      | some ts =>
          dsimp only [Option.map_some]
          by_cases hg : goodToken t = true
          · by_cases ha : ts.all goodToken = true
            · simp [List.all_cons, hg, ha]
            · simp [List.all_cons, hg, ha]
          · simp [List.all_cons, hg]

theorem decodeDeltas_toOption_aux (encoded : List Nat) :
    ∀ (n idx : Nat), encoded.length - idx ≤ n →
      (decodeDeltas encoded idx).toOption = specDeltas (encoded.drop idx) := by
  intro n
  induction n with
  | zero =>
      intro idx hle
      rw [decodeDeltas]
      rw [dif_neg (by omega)]
      have hdrop : encoded.drop idx = [] := List.drop_eq_nil_of_le (by omega)
      rw [hdrop]
      rfl
  | succ n ih =>
      intro idx hle
      rw [decodeDeltas]
      by_cases hlt : idx < encoded.length
      · rw [dif_pos hlt]
        have hchar := nextIntAux_char encoded 5 idx 0 0
        obtain ⟨b, rest', hdrop⟩ : ∃ b rest', encoded.drop idx = b :: rest' := by
          cases hd : encoded.drop idx with
          | nil =>
              exfalso
              have := congrArg List.length hd
              simp at this
              omega
          | cons x xs => exact ⟨x, xs, rfl⟩
        rw [hdrop] at hchar
        rw [hdrop, specDeltas_cons]
        split
        next e he =>
          rw [nextInt, if_pos hlt] at he
          rw [he] at hchar
          cases ht : takeToken (b :: rest') with
          | none => rfl
          | some tr =>
              obtain ⟨t, r⟩ := tr
              rw [ht] at hchar
              dsimp only at hchar ⊢
              by_cases hc : tokCond 5 0 0 t = true
              · rw [if_pos hc] at hchar
                simp [Except.toOption] at hchar
              · rw [← tokCond_eq_goodToken, if_neg hc]
                rfl
        next v idx' he =>
          rw [nextInt, if_pos hlt] at he
          rw [he] at hchar
          cases ht : takeToken (b :: rest') with
          | none =>
              rw [ht] at hchar
              simp [Except.toOption] at hchar
          | some tr =>
              obtain ⟨t, r⟩ := tr
              rw [ht] at hchar
              dsimp only at hchar ⊢
              by_cases hc : tokCond 5 0 0 t = true
              · rw [if_pos hc] at hchar
                simp only [Except.toOption, Option.some.injEq, Prod.mk.injEq] at hchar
                obtain ⟨hv, hidx'⟩ := hchar
                have hprog := nextInt_ok_idx hlt (by rw [nextInt, if_pos hlt]; exact he)
                have hr : encoded.drop idx' = r := by
                  obtain ⟨happ, -⟩ := takeToken_spec ht
                  have h1 : encoded.drop idx' = (encoded.drop idx).drop t.length := by
                    rw [List.drop_drop, hidx']
                  rw [h1, hdrop, happ, List.drop_left]
                have hih := ih idx' (by omega)
                rw [hr] at hih
                rw [← tokCond_eq_goodToken, if_pos hc]
                rw [magnitude_eq_magAux, ← hih, ← hv]
                cases hd : decodeDeltas encoded idx' with
                | error e => rfl
                | ok rest => rfl
              · rw [if_neg hc] at hchar
                simp [Except.toOption] at hchar
      · rw [dif_neg hlt]
        have hdrop : encoded.drop idx = [] := List.drop_eq_nil_of_le (by omega)
        rw [hdrop]
        rfl

/-- `decode`'s deltas loop agrees with the specification-side tokenizer. -/
theorem decodeDeltas_toOption (encoded : List Nat) (idx : Nat) :
    (decodeDeltas encoded idx).toOption = specDeltas (encoded.drop idx) :=
  decodeDeltas_toOption_aux encoded (encoded.length - idx) idx le_rfl

/-- `decode` agrees with the specification-side decoder. -/
theorem decode_toOption (bs : List Nat) :
    (decode bs).toOption = (specDeltas bs).map (fun ds => runningSums ds 0) := by
  rw [decode]
  have h := decodeDeltas_toOption bs 0
  rw [List.drop_zero] at h
  cases hd : decodeDeltas bs 0 with
  | error e =>
      rw [hd] at h
      simp only [Except.toOption] at h ⊢
      rw [← h]
      rfl
  | ok ds =>
      rw [hd] at h
      simp only [Except.toOption] at h ⊢
      rw [← h]
      rfl

theorem exceptToOption_some {ε α : Type} {e : Except ε α} {x : α}
    (h : e.toOption = some x) : e = .ok x := by
  cases e <;> simp_all [Except.toOption]

theorem exceptToOption_none_iff {ε α : Type} {e : Except ε α} :
    (∃ err, e = .error err) ↔ e.toOption = none := by
  cases e <;> simp [Except.toOption]

theorem decode_ok_of_spec (bs : List Nat) (ds : List Int)
    (h : specDeltas bs = some ds) : decode bs = .ok (runningSums ds 0) := by
  apply exceptToOption_some
  rw [decode_toOption, h]
  rfl

theorem decode_error_of_spec (bs : List Nat) (h : specDeltas bs = none) :
    ∃ e, decode bs = .error e := by
  rw [exceptToOption_none_iff, decode_toOption, h]
  rfl

theorem runningSums_get (ds : List Int) :
    ∀ (last : Int) (i : Nat), i < ds.length →
      (runningSums ds last).get? i = some ((ds.take (i + 1)).sum + last) := by
  induction ds with
  | nil =>
      intro last i h
      simp at h
  | cons d rest ih =>
      intro last i h
      cases i with
      | zero => simp [runningSums]
      | succ i =>
          simp only [runningSums, List.get?]
          rw [ih (d + last) i (by simpa using h)]
          congr 1
          simp only [List.take, List.sum_cons]
          omega

/-- C2: on every accepted byte sequence the output of `integer_list.decode` is
the running sum of the zigzag-decoded UIntBase128 magnitudes (element `i` is
the sum of deltas `0..i`), the empty input decodes to the empty sequence, and
the fixed test vector decodes as stated. -/
theorem C2_decode_is_running_sum :
    decode [] = .ok [] ∧
    (∀ (bs : List Nat) (vs : List Int), decode bs = .ok vs →
      ∃ toks, splitTokens bs = some toks ∧
        vs = runningSums (toks.map fun t => decode_zig_zag (magnitude t)) 0) ∧
    (∀ (ds : List Int) (i : Nat), i < ds.length →
      (runningSums ds 0).get? i = some ((ds.take (i + 1)).sum)) ∧
    decode [0x2E, 0x28, 0x3D, 0x11, 0x81, 0x00, 0x02, 0x02, 0x81, 0x09] =
      .ok [23, 43, 12, 3, 67, 68, 69, 0] := by
  refine ⟨?_, ?_, ?_, ?_⟩
  · exact decode_ok_of_spec [] [] (by decide)
  · intro bs vs hok
    have h := decode_toOption bs
    rw [hok] at h
    cases hs : specDeltas bs with
    | none => rw [hs] at h; simp [Except.toOption] at h
    | some ds =>
        rw [hs] at h
        simp only [Except.toOption, Option.map_some', Option.some.injEq] at h
        rw [specDeltas] at hs
        cases hsplit : splitTokens bs with
        | none => rw [hsplit] at hs; simp at hs
        | some toks =>
            rw [hsplit] at hs
            dsimp only at hs
            by_cases ha : toks.all goodToken = true
            · rw [if_pos ha] at hs
              simp only [Option.some.injEq] at hs
              exact ⟨toks, rfl, by rw [h, ← hs]⟩

            · rw [if_neg ha] at hs
              simp at hs
  · intro ds i h
    have := runningSums_get ds 0 i h
    simpa using this
  · exact decode_ok_of_spec [0x2E, 0x28, 0x3D, 0x11, 0x81, 0x00, 0x02, 0x02, 0x81, 0x09]
      [23, 20, -31, -9, 64, 1, 1, -69] (by decide)

/-- C3: `integer_list.decode` fails exactly when the stream, tokenized into
UIntBase128 values, contains a value of more than 5 octets, a value whose
first octet is the bare continuation byte `0x80`, a value whose magnitude
exceeds `2^32 - 1`, or a value truncated by the end of the buffer; the three
fixed malformed inputs fail and the 5-octet encoding of `2^32 - 1` is
accepted. -/
theorem C3_decode_error_iff :
    (∀ bs : List Nat, (∃ e, decode bs = .error e) ↔
      ¬(∃ toks, splitTokens bs = some toks ∧ ∀ t ∈ toks, goodToken t = true)) ∧
    (∃ e, decode [0x80, 0x01] = .error e) ∧
    (∃ e, decode [0x81, 0x80, 0x80, 0x80, 0x80, 0x00] = .error e) ∧
    (∃ e, decode [0xFF, 0xFF, 0xFF, 0xFF, 0x01] = .error e) ∧
    decode [0x8F, 0xFF, 0xFF, 0xFF, 0x7F] = .ok [-2147483648] := by
  have key : ∀ bs : List Nat, specDeltas bs = none ↔
      ¬(∃ toks, splitTokens bs = some toks ∧ ∀ t ∈ toks, goodToken t = true) := by
    intro bs
    cases hs : splitTokens bs with
    | none => simp [specDeltas, hs]
    | some toks =>
        rw [specDeltas, hs]
        dsimp only
        by_cases ha : toks.all goodToken = true
        · rw [if_pos ha]
          simp only [List.all_eq_true] at ha
          constructor
          · intro hcontra
            simp at hcontra
          · intro hno
            exact absurd ⟨toks, rfl, ha⟩ hno
        · rw [if_neg ha]
          simp only [List.all_eq_true] at ha
          constructor
          · rintro - ⟨toks1, heq, hall⟩
            simp only [Option.some.injEq] at heq
            subst heq
            exact ha hall
          · intro _
            rfl
  refine ⟨?_, ?_, ?_, ?_, ?_⟩
  · intro bs
    rw [exceptToOption_none_iff, decode_toOption, ← key bs]
    cases specDeltas bs <;> simp
  · exact decode_error_of_spec [0x80, 0x01] (by decide)
  · exact decode_error_of_spec [0x81, 0x80, 0x80, 0x80, 0x80, 0x00] (by decide)
  · exact decode_error_of_spec [0xFF, 0xFF, 0xFF, 0xFF, 0x01] (by decide)
  · exact decode_ok_of_spec [0x8F, 0xFF, 0xFF, 0xFF, 0x7F] [-2147483648] (by decide)

theorem splitTokensAux_length :
    ∀ (l cur : List Nat) (toks : List (List Nat)),
      splitTokensAux cur l = some toks → toks.length ≤ l.length := by
  intro l
  induction l with
  | nil =>
      intro cur toks h
      rw [splitTokensAux] at h
      by_cases hc : cur.isEmpty
      · rw [if_pos hc] at h
        simp only [Option.some.injEq] at h
        simp [← h]
      · rw [if_neg hc] at h
        simp at h
  | cons b rest ih =>
      intro cur toks h
      rw [splitTokensAux] at h
      by_cases hb : (b &&& 0x80 == 0) = true
      · rw [if_pos hb] at h
        cases hs : splitTokensAux [] rest with
        | none => rw [hs] at h; simp at h
        | some toks' =>
            rw [hs] at h
            simp only [Option.some.injEq] at h
            have := ih [] toks' hs
            rw [← h]
            simp only [List.length_cons]
            omega
      · rw [if_neg hb] at h
        have := ih (cur ++ [b]) toks h
        simp only [List.length_cons]
        omega

/-- C9: the decoder always terminates: whenever the decode loop calls
`next_int` with bytes remaining, the cursor strictly increases by at most 5
and never passes the end of the buffer, and the loop therefore performs at
most `len(input)` iterations (one per emitted delta). -/
theorem C9_decode_terminates :
    (∀ (bs : List Nat) (idx : Nat) (v : Int) (idx' : Nat),
      idx < bs.length → nextInt bs idx = .ok (v, idx') →
      idx + 1 ≤ idx' ∧ idx' ≤ idx + 5 ∧ idx' ≤ bs.length) ∧
    (∀ (bs : List Nat) (ds : List Int),
      decodeDeltas bs 0 = .ok ds → ds.length ≤ bs.length) := by
  constructor
  · intro bs idx v idx' hlt hok
    have := nextInt_ok_idx hlt hok
    omega
  · intro bs ds hok
    have h := decodeDeltas_toOption bs 0
    rw [hok, List.drop_zero] at h
    cases hs : specDeltas bs with
    | none => rw [hs] at h; simp [Except.toOption] at h
    | some ds' =>
        rw [hs] at h
        simp only [Except.toOption, Option.some.injEq] at h
        rw [specDeltas] at hs
        cases hsplit : splitTokens bs with
        | none => rw [hsplit] at hs; simp at hs
        | some toks =>
            rw [hsplit] at hs
            dsimp only at hs
            by_cases ha : toks.all goodToken = true
            · rw [if_pos ha] at hs
              simp only [Option.some.injEq] at hs
              have hlen := splitTokensAux_length bs [] toks hsplit
              rw [h, ← hs]
              simpa using hlen
            · rw [if_neg ha] at hs
              simp at hs

/-- Witness for C2 at concrete inputs. -/
theorem C2_witness :
    (∃ toks, splitTokens [0x2E, 0x28] = some toks ∧
      [(23 : Int), 43] = runningSums (toks.map fun t => decode_zig_zag (magnitude t)) 0) ∧
    (runningSums [(2 : Int), 3] 0).get? 1 = some (([(2 : Int), 3].take 2).sum) := by
  constructor
  · exact C2_decode_is_running_sum.2.1 [0x2E, 0x28] [23, 43]
      (decode_ok_of_spec [0x2E, 0x28] [23, 20] (by decide))
  · exact C2_decode_is_running_sum.2.2.1 [2, 3] 1 (by decide)

/-- Witness for C9 at concrete inputs. -/
theorem C9_witness :
    (0 + 1 ≤ 1 ∧ 1 ≤ 0 + 5 ∧ 1 ≤ [0x02, 0x03].length) ∧
    ([(1 : Int)].length ≤ [0x02].length) := by
  constructor
  · exact C9_decode_terminates.1 [0x02, 0x03] 0 1 1 (by decide) rfl
  · refine C9_decode_terminates.2 [0x02] [1] ?_
    exact exceptToOption_some ((decodeDeltas_toOption [0x02] 0).trans (by decide))

/-! ## sample_requests.py -/

/-- The delta loop of `ValidRequests.compressed_set`: for each codepoint in
ascending order emit the gap from the previous codepoint followed by a fixed
run-length delta of `0`.  `last_cp` starts at `0`; Python integers are
unbounded, so deltas are `Int`. -/
def rangeDeltasAux (last_cp : Int) : List Nat → List Int
  | [] => []
  | c :: rest => ((c : Int) - last_cp) :: 0 :: rangeDeltasAux (c : Int) rest

/-- `bytes(deltas)`: Python raises `ValueError` unless every entry lies in
`[0, 256)`; modelled as `none` on failure. -/
def bytesOfInts (ds : List Int) : Option (List Nat) :=
  if ds.all (fun d => decide (0 ≤ d) && decide (d < 256)) then some (ds.map Int.toNat)
  else none

/-- `ValidRequests.compressed_set(codepoints)`: the RANGE_DELTAS byte string
for a set of codepoints (modelled as a list; `sorted(codepoints)` is its
ascending merge sort), or `none` when `bytes(...)` raises. -/
def compressed_set (codepoints : List Nat) : Option (List Nat) :=
  bytesOfInts (rangeDeltasAux 0 (codepoints.insertionSort (· ≤ ·)))

theorem insertionSort_le_sorted (L : List Nat) :
    List.Sorted (· ≤ ·) (L.insertionSort (· ≤ ·)) :=
  List.sorted_insertionSort _ L

/-- The deltas emitted by the encoder are all legal byte values exactly when
every step from `last` through the codepoint list moves forward by at most
255. -/
theorem rangeDeltasAux_bytes_iff (L : List Nat) :
    ∀ last : Nat,
      ((rangeDeltasAux (last : Int) L).all (fun d => decide (0 ≤ d) && decide (d < 256))
        = true) ↔
      List.Chain (fun a b => a ≤ b ∧ b ≤ a + 255) last L := by
  induction L with
  | nil => intro last; simp [rangeDeltasAux]
  | cons c rest ih =>
      intro last
      rw [rangeDeltasAux]
      simp only [List.all_cons, Bool.and_eq_true, List.chain_cons, decide_eq_true_eq]
      rw [← ih c]
      constructor
      · rintro ⟨⟨h1, h2⟩, -, h3⟩
        exact ⟨⟨by omega, by omega⟩, h3⟩
      · rintro ⟨⟨h1, h2⟩, h3⟩
        refine ⟨⟨by omega, by omega⟩, ⟨by omega, by omega⟩, h3⟩

/-- On a sorted list, the per-step condition `a ≤ b ∧ b ≤ a + k` reduces to
the gap bound alone. -/
theorem chain_conj_iff_gap (k : Nat) :
    ∀ (L : List Nat) (last : Nat), List.Sorted (· ≤ ·) L →
      (∀ c, L.head? = some c → last ≤ c) →
      (List.Chain (fun a b => a ≤ b ∧ b ≤ a + k) last L ↔
        List.Chain (fun a b => b ≤ a + k) last L) := by
  intro L
  induction L with
  | nil => intro last _ _; simp
  | cons c rest ih =>
      intro last hs hhead
      have hlast : last ≤ c := hhead c rfl
      obtain ⟨hall, hrest⟩ := List.sorted_cons.mp hs
      rw [List.chain_cons, List.chain_cons,
        ih c hrest (fun d hd => by
          cases rest with
          | nil => simp at hd
          | cons d' rest' =>
              simp only [List.head?, Option.some.injEq] at hd
              exact hd ▸ hall d' (by simp))]
      constructor
      · rintro ⟨⟨-, h2⟩, h3⟩
        exact ⟨h2, h3⟩
      · rintro ⟨h2, h3⟩
        exact ⟨⟨hlast, h2⟩, h3⟩

/-- C10: `ValidRequests.compressed_set` succeeds (the byte string can be
built) if and only if, in ascending order, the least codepoint and every gap
between consecutive codepoints are at most 255; each delta is emitted as one
raw byte, so any larger delta makes `bytes(...)` raise. -/
theorem C10_compressed_set_byte_bound (cps : List Nat) :
    (compressed_set cps).isSome = true ↔
      List.Chain (fun a b => b ≤ a + 255) 0 (cps.insertionSort (· ≤ ·)) := by
  rw [compressed_set, bytesOfInts]
  have hsorted := insertionSort_le_sorted cps
  have h0 : ((0 : Nat) : Int) = (0 : Int) := rfl
  rw [← h0]
  rw [← chain_conj_iff_gap 255 _ 0 hsorted (fun c _ => Nat.zero_le c)]
  rw [← rangeDeltasAux_bytes_iff]
  by_cases hc : ((rangeDeltasAux ((0 : Nat) : Int)
      (cps.insertionSort (· ≤ ·))).all
        (fun d => decide (0 ≤ d) && decide (d < 256)) = true)
  · simp [hc]
  · simp [hc]

/-! Claim C4 renders the round trip `compressed_set` → `integer_list.decode`:
the decoded sequence consists of consecutive pairs (the run-length delta 0
repeats each running sum), and the claim asserts that the pair values are
exactly the encoded set. -/

/-- The first components of the consecutive pairs of a decoded sequence. -/
def pairValues : List Int → List Int
  | v :: _ :: rest => v :: pairValues rest
  | _ => []

/-- The inverse of `decode_zig_zag`. -/
def zigzagEnc (n : Int) : Nat :=
  if n < 0 then (2 * (-n) - 1).toNat else (2 * n).toNat

theorem zigzagEnc_decode (g : Nat) : zigzagEnc (decode_zig_zag g) = g := by
  have hand : g &&& 1 = g % 2 := by
    simpa using Nat.and_pow_two_sub_one_eq_mod g 1
  rw [decode_zig_zag, zigzagEnc, hand]
  by_cases h : g % 2 ≠ 0
  · rw [if_pos h]
    have hodd : g % 2 = 1 := by omega
    split
    · omega
    · omega
  · rw [if_neg h]
    split
    · omega
    · omega

/-- Reconstruct the codepoints from a decoded range-deltas sequence by
undoing the zigzag step on the successive gaps of the (value, value) pairs. -/
def recoverAux (lastSum : Int) (lastVal : Nat) : List Int → List Nat
  | v :: _ :: rest =>
      (lastVal + zigzagEnc (v - lastSum)) ::
        recoverAux v (lastVal + zigzagEnc (v - lastSum)) rest
  | _ => []

def recoverValues (vs : List Int) : List Nat := recoverAux 0 0 vs

/-- C4 counterexample: the round trip as claimed fails already on the
singleton set `{1}`: the encoder emits the raw gap byte `0x01`, but
`integer_list.decode` zigzag-decodes it to `-1`, so the reconstructed pair
values are `[-1]`, not `[1]`. -/
theorem C4_counterexample :
    ¬(∀ bs, compressed_set [1] = some bs →
        ∃ vs, decode bs = .ok vs ∧ pairValues vs = [(1 : Int)]) := by
  intro h
  obtain ⟨vs, hok, hre⟩ := h [1, 0] (by decide)
  have h2 := decode_ok_of_spec [1, 0] [-1, 0] (by decide)
  rw [hok] at h2
  simp only [Except.ok.injEq] at h2
  subst h2
  simp [pairValues, runningSums] at hre

theorem deltas_bound (L : List Nat) :
    ∀ last : Nat, List.Chain (fun a b => a ≤ b ∧ b ≤ a + 127) last L →
      ∀ d ∈ rangeDeltasAux (last : Int) L, 0 ≤ d ∧ d < 128 := by
  induction L with
  | nil => intro last _ d hd; simp [rangeDeltasAux] at hd
  | cons c rest ih =>
      intro last hchain d hd
      rw [List.chain_cons] at hchain
      obtain ⟨⟨h1, h2⟩, h3⟩ := hchain
      rw [rangeDeltasAux] at hd
      simp only [List.mem_cons] at hd
      rcases hd with h | h | h
      · subst h
        constructor <;> [omega; omega]
      · subst h
        constructor <;> [omega; omega]
      · exact ih c h3 d h

theorem splitTokens_singletons (bs : List Nat) (hb : ∀ b ∈ bs, b < 128) :
    splitTokens bs = some (bs.map (fun b => [b])) := by
  induction bs with
  | nil => rfl
  | cons b rest ih =>
      have hb0 : b < 128 := hb b (by simp)
      have hterm : (b &&& 0x80 == 0) = true := by
        have h1 := Nat.and_two_pow b 7
        have h2 : b.testBit 7 = false := Nat.testBit_lt_two_pow hb0
        rw [h2] at h1
        simp only [Bool.toNat_false, Nat.zero_mul] at h1
        simpa using h1
      rw [splitTokens] at ih ⊢
      rw [splitTokensAux, if_pos hterm, ih (fun x hx => hb x (by simp [hx]))]
      simp

theorem goodToken_singleton (b : Nat) (hb : b < 128) : goodToken [b] = true := by
  rw [goodToken]
  have hm : magnitude [b] = b % 128 := by
    simp [magnitude]
  rw [hm]
  simp only [List.length_cons, List.length_nil, List.head?]
  have hne : (some b != some 0x80) = true := by
    simp only [bne_iff_ne, ne_eq, Option.some.injEq]
    omega
  rw [hne]
  simp only [Bool.and_true, Bool.true_and]
  simp
  omega

/-- `specDeltas` on a stream of single-octet values. -/
theorem specDeltas_singletons (bs : List Nat) (hb : ∀ b ∈ bs, b < 128) :
    specDeltas bs = some (bs.map (fun b => decode_zig_zag b)) := by
  rw [specDeltas, splitTokens_singletons bs hb]
  dsimp only
  have hall : (bs.map (fun b => [b])).all goodToken = true := by
    rw [List.all_eq_true]
    intro t ht
    simp only [List.mem_map] at ht
    obtain ⟨b, hbmem, rfl⟩ := ht
    exact goodToken_singleton b (hb b hbmem)
  rw [if_pos hall]
  congr 1
  rw [List.map_map]
  apply List.map_congr_left
  intro b hbmem
  have : magnitude [b] = b := by
    simp [magnitude, Nat.mod_eq_of_lt (hb b hbmem)]
  simp [Function.comp, this]

/-- The reconstruction inverts the encode-then-decode pipeline, gap by gap. -/
theorem recover_roundtrip (L : List Nat) :
    ∀ (lastVal : Nat) (s0 : Int),
      List.Chain (fun a b => a ≤ b ∧ b ≤ a + 127) lastVal L →
      recoverAux s0 lastVal
        (runningSums ((rangeDeltasAux (lastVal : Int) L).map
          (fun d => decode_zig_zag d.toNat)) s0) = L := by
  induction L with
  | nil => intro lastVal s0 _; rfl
  | cons c rest ih =>
      intro lastVal s0 hchain
      rw [List.chain_cons] at hchain
      obtain ⟨⟨h1, h2⟩, h3⟩ := hchain
      rw [rangeDeltasAux]
      simp only [List.map_cons]
      rw [runningSums, runningSums, recoverAux]
      have htn : ((c : Int) - (lastVal : Int)).toNat = c - lastVal := by omega
      have hzz : zigzagEnc (decode_zig_zag ((c : Int) - (lastVal : Int)).toNat +
          s0 - s0) = c - lastVal := by
        rw [show decode_zig_zag ((c : Int) - (lastVal : Int)).toNat + s0 - s0 =
          decode_zig_zag ((c : Int) - (lastVal : Int)).toNat by omega]
        rw [htn, zigzagEnc_decode]
      rw [hzz]
      have hval : lastVal + (c - lastVal) = c := by omega
      rw [hval]
      congr 1
      have hz0 : decode_zig_zag (0 : Int).toNat = 0 := by decide
      rw [hz0]
      have hs : (0 : Int) + (decode_zig_zag ((c : Int) - (lastVal : Int)).toNat + s0) =
          decode_zig_zag ((c : Int) - (lastVal : Int)).toNat + s0 := by omega
      rw [hs]
      exact ih c _ h3

/-- C4 amended: for a set whose least element and consecutive gaps are at
most 127 the round trip holds once the zigzag step is inverted: the encoder
succeeds, `integer_list.decode` accepts its bytes, and reconstructing the
values from the decoded (gap, 0) pairs — undoing the zigzag the decoder
applied — yields exactly the set. -/
theorem C4_roundtrip_amended (cps : List Nat)
    (hchain : List.Chain (fun a b => b ≤ a + 127) 0 (cps.insertionSort (· ≤ ·))) :
    ∃ bs vs, compressed_set cps = some bs ∧ decode bs = .ok vs ∧
      recoverValues vs = cps.insertionSort (· ≤ ·) ∧
      (∀ x, x ∈ recoverValues vs ↔ x ∈ cps) := by
  set L := cps.insertionSort (· ≤ ·) with hL
  have hconj : List.Chain (fun a b => a ≤ b ∧ b ≤ a + 127) 0 L := by
    rw [chain_conj_iff_gap 127 L 0 (insertionSort_le_sorted cps) (fun c _ => Nat.zero_le c)]
    exact hchain
  have hbound := deltas_bound L 0 hconj
  have hbound' : ∀ d ∈ rangeDeltasAux ((0 : Nat) : Int) L, 0 ≤ d ∧ d < 128 := hbound
  set ds := rangeDeltasAux ((0 : Nat) : Int) L with hds
  have hbytes : bytesOfInts ds = some (ds.map Int.toNat) := by
    rw [bytesOfInts, if_pos]
    rw [List.all_eq_true]
    intro d hd
    have := hbound' d hd
    simp only [Bool.and_eq_true, decide_eq_true_eq]
    omega
  set bs := ds.map Int.toNat with hbs
  have hlt : ∀ b ∈ bs, b < 128 := by
    intro b hbmem
    rw [hbs] at hbmem
    simp only [List.mem_map] at hbmem
    obtain ⟨d, hd, rfl⟩ := hbmem
    have := hbound' d hd
    omega
  have hspec := specDeltas_singletons bs hlt
  refine ⟨bs, runningSums (bs.map (fun b => decode_zig_zag b)) 0,
    ?_, decode_ok_of_spec bs _ hspec, ?_, ?_⟩
  · rw [compressed_set]
    exact hbytes
  · rw [recoverValues]
    have hmap : bs.map (fun b => decode_zig_zag b) =
        ds.map (fun d => decode_zig_zag d.toNat) := by
      rw [hbs, List.map_map]
      rfl
    rw [hmap, hds]
    exact recover_roundtrip L 0 0 hconj
  · intro x
    rw [recoverValues]
    have hmap : bs.map (fun b => decode_zig_zag b) =
        ds.map (fun d => decode_zig_zag d.toNat) := by
      rw [hbs, List.map_map]
      rfl
    rw [hmap, hds]
    rw [recover_roundtrip L 0 0 hconj]
    exact (List.perm_insertionSort (· ≤ ·) cps).mem_iff

/-- Witness for the amended C4 at the concrete set `{65, 67}`. -/
theorem C4_roundtrip_amended_witness :
    ∃ bs vs, compressed_set [65, 67] = some bs ∧ decode bs = .ok vs ∧
      recoverValues vs = [65, 67].insertionSort (· ≤ ·) ∧
      (∀ x, x ∈ recoverValues vs ↔ x ∈ [65, 67]) := by
  refine C4_roundtrip_amended [65, 67] ?_
  rw [show List.insertionSort (· ≤ ·) [65, 67] = [65, 67] from by decide]
  exact List.Chain.cons (by omega) (List.Chain.cons (by omega) List.Chain.nil)

/-! ## axis_util.py

Axis values are Python floats; they are modelled as rationals, which carry
the same ordered-field comparisons the code performs.  An `AxisInterval` is
the data-model object `{start, optional end}` (dict keys `AXIS_START = 0`,
`AXIS_END = 1`); an `AxisSpace` is a Python dict from tag to interval list,
modelled as an association list with distinct keys. -/

structure AxisInterval where
  astart : ℚ
  aend : Option ℚ
deriving DecidableEq, Repr

abbrev AxisSpace := List (String × List AxisInterval)

/-- `normalize_interval(interval)`: points are always represented only as a
start. -/
def normalize_interval (iv : AxisInterval) : AxisInterval :=
  match iv.aend with
  | none => ⟨iv.astart, none⟩
  | some e => if iv.astart = e then ⟨iv.astart, none⟩ else ⟨iv.astart, some e⟩

/-- `normalize_intervals(intervals)`: stable sort by start, then normalize
each interval. -/
def normalize_intervals (ivs : List AxisInterval) : List AxisInterval :=
  (ivs.insertionSort (fun a b => a.astart ≤ b.astart)).map normalize_interval

/-- `axis_intervals_equal(intervals_1, intervals_2)`. -/
def axis_intervals_equal (l1 l2 : List AxisInterval) : Bool :=
  normalize_intervals l1 == normalize_intervals l2

/-- `axis_space_equal(space_1, space_2)`. -/
def axis_space_equal (s1 s2 : AxisSpace) : Bool :=
  s1.length == s2.length &&
  s1.all (fun p =>
    match s2.lookup p.1 with
    | none => false
    | some ivs2 => axis_intervals_equal p.2 ivs2)

/-- The set of axis values covered by an interval list: a point interval
covers its start, a range covers the closed interval. -/
def covers (ivs : List AxisInterval) (x : ℚ) : Prop :=
  ∃ iv ∈ ivs, iv.astart ≤ x ∧ x ≤ iv.aend.getD iv.astart

/-- The set of values a space covers for a tag (nothing when the tag is
absent). -/
def spaceCovers (s : AxisSpace) (tag : String) (x : ℚ) : Prop :=
  match s.lookup tag with
  | none => False
  | some ivs => covers ivs x

/-! Association-list (Python dict) lemmas. -/

theorem lookup_some_mem {β : Type} {l : List (String × β)} {k : String} {v : β}
    (h : l.lookup k = some v) : (k, v) ∈ l := by
  induction l with
  | nil => simp [List.lookup] at h
  | cons p rest ih =>
      rw [List.lookup] at h
      cases hk : (k == p.1) with
      | true =>
          rw [hk] at h
          simp only [Option.some.injEq] at h
          have hkp : k = p.1 := by simpa using hk
          have : (k, v) = p := by
            rw [hkp, ← h]
          rw [this]
          exact List.mem_cons_self p rest
      | false =>
          rw [hk] at h
          right
          exact ih h

theorem lookup_eq_of_mem_nodup {β : Type} {l : List (String × β)}
    (hnd : (l.map Prod.fst).Nodup) {k : String} {v : β} (hmem : (k, v) ∈ l) :
    l.lookup k = some v := by
  induction l with
  | nil => simp at hmem
  | cons p rest ih =>
      simp only [List.map_cons, List.nodup_cons] at hnd
      obtain ⟨hhead, htail⟩ := hnd
      rw [List.lookup]
      rcases List.mem_cons.mp hmem with h | h
      · rw [← h]
        simp
      · have hk : ¬(k = p.1) := by
          intro hx
          apply hhead
          rw [← hx]
          exact List.mem_map.mpr ⟨(k, v), h, rfl⟩
        have hk2 : (k == p.1) = false := by simpa using hk
        rw [hk2]
        exact ih htail h

theorem lookup_none_iff {β : Type} {l : List (String × β)} {k : String} :
    l.lookup k = none ↔ k ∉ l.map Prod.fst := by
  induction l with
  | nil => simp [List.lookup]
  | cons p rest ih =>
      rw [List.lookup]
      cases hk : (k == p.1) with
      | true =>
          have hkp : k = p.1 := by simpa using hk
          simp [hkp]
      | false =>
          have hkp : ¬k = p.1 := by simpa using hk
          simp [hkp, ih]

theorem normalize_interval_start (iv : AxisInterval) :
    (normalize_interval iv).astart = iv.astart := by
  rw [normalize_interval]
  cases iv.aend with
  | none => rfl
  | some e =>
      dsimp only
      split <;> rfl

/-- Sorting by start is unique when the starts are pairwise distinct: any two
sorted permutations coincide. -/
theorem sorted_start_unique {L1 L2 : List AxisInterval}
    (hp : L1.Perm L2)
    (hs1 : List.Pairwise (fun a b : AxisInterval => a.astart ≤ b.astart) L1)
    (hs2 : List.Pairwise (fun a b : AxisInterval => a.astart ≤ b.astart) L2)
    (hd : L1.Pairwise (fun i j => i.astart ≠ j.astart)) : L1 = L2 := by
  haveI : IsAntisymm AxisInterval (fun a b => a.astart < b.astart) :=
    ⟨fun a b h1 h2 => absurd (lt_trans h1 h2) (lt_irrefl _)⟩
  have hd2 : L2.Pairwise (fun i j => i.astart ≠ j.astart) :=
    (hp.pairwise_iff (fun h => Ne.symm h)).mp hd
  refine List.eq_of_perm_of_sorted (r := fun a b : AxisInterval => a.astart < b.astart) hp ?_ ?_
  · exact (hs1.and hd).imp (fun h => lt_of_le_of_ne h.1 h.2)
  · exact (hs2.and hd2).imp (fun h => lt_of_le_of_ne h.1 h.2)

theorem insertionSort_start_sorted (l : List AxisInterval) :
    List.Pairwise (fun a b : AxisInterval => a.astart ≤ b.astart)
      (l.insertionSort (fun a b => a.astart ≤ b.astart)) := by
  haveI : IsTotal AxisInterval (fun a b : AxisInterval => a.astart ≤ b.astart) :=
    ⟨fun a b => le_total _ _⟩
  haveI : IsTrans AxisInterval (fun a b : AxisInterval => a.astart ≤ b.astart) :=
    ⟨fun _ _ _ => le_trans⟩
  exact List.sorted_insertionSort _ l

/-- With pairwise distinct starts, normalizing commutes with sorting. -/
theorem normalize_intervals_eq_sort_map (l : List AxisInterval)
    (hd : l.Pairwise (fun i j => i.astart ≠ j.astart)) :
    normalize_intervals l =
      (l.map normalize_interval).insertionSort (fun a b => a.astart ≤ b.astart) := by
  have hperm1 : (l.insertionSort (fun a b => a.astart ≤ b.astart)).Perm l :=
    List.perm_insertionSort _ l
  have hpermL :
      (normalize_intervals l).Perm (l.map normalize_interval) := by
    rw [normalize_intervals]
    exact hperm1.map normalize_interval
  have hpermR :
      ((l.map normalize_interval).insertionSort
        (fun a b => a.astart ≤ b.astart)).Perm (l.map normalize_interval) :=
    List.perm_insertionSort _ _
  refine sorted_start_unique (hpermL.trans hpermR.symm) ?_ ?_ ?_
  · rw [normalize_intervals]
    rw [List.pairwise_map]
    have := insertionSort_start_sorted l
    refine this.imp ?_
    intro a b h
    rw [normalize_interval_start, normalize_interval_start]
    exact h
  · exact insertionSort_start_sorted _
  · rw [normalize_intervals, List.pairwise_map]
    have hd1 : (l.insertionSort (fun a b => a.astart ≤ b.astart)).Pairwise
        (fun i j => i.astart ≠ j.astart) :=
      (hperm1.pairwise_iff (fun h => Ne.symm h)).mpr hd
    refine hd1.imp ?_
    intro a b h
    rw [normalize_interval_start, normalize_interval_start]
    exact h

/-- Normalization is insensitive to the input order of an interval list with
pairwise distinct starts. -/
theorem normalize_intervals_perm {l l' : List AxisInterval}
    (hp : l.Perm l') (hd : l.Pairwise (fun i j => i.astart ≠ j.astart)) :
    normalize_intervals l = normalize_intervals l' := by
  have hd' : l'.Pairwise (fun i j => i.astart ≠ j.astart) :=
    (hp.pairwise_iff (fun h => Ne.symm h)).mp hd
  rw [normalize_intervals_eq_sort_map l hd, normalize_intervals_eq_sort_map l' hd']
  refine sorted_start_unique ?_ (insertionSort_start_sorted _) (insertionSort_start_sorted _) ?_
  · exact (List.perm_insertionSort _ _).trans
      ((hp.map normalize_interval).trans (List.perm_insertionSort _ _).symm)
  · have : (l.map normalize_interval).Pairwise (fun i j => i.astart ≠ j.astart) := by
      rw [List.pairwise_map]
      refine hd.imp ?_
      intro a b h
      rw [normalize_interval_start, normalize_interval_start]
      exact h
    exact ((List.perm_insertionSort _ _).pairwise_iff (fun h => Ne.symm h)).mpr this

/-- Replacing one interval by another with the same start and the same
normal form does not change the normalized list (distinct starts). -/
theorem normalize_intervals_replace {ipre ipost : List AxisInterval}
    {e e' : AxisInterval} (hstart : e'.astart = e.astart)
    (hnorm : normalize_interval e' = normalize_interval e)
    (hd : (ipre ++ e :: ipost).Pairwise (fun i j => i.astart ≠ j.astart)) :
    normalize_intervals (ipre ++ e :: ipost) =
      normalize_intervals (ipre ++ e' :: ipost) := by
  have hd' : (ipre ++ e' :: ipost).Pairwise (fun i j => i.astart ≠ j.astart) := by
    have hmap : (ipre ++ e' :: ipost).map AxisInterval.astart =
        (ipre ++ e :: ipost).map AxisInterval.astart := by
      simp [hstart]
    rw [← List.pairwise_map (f := AxisInterval.astart) (R := fun a b => a ≠ b)] at hd ⊢
    rw [hmap]
    exact hd
  rw [normalize_intervals_eq_sort_map _ hd, normalize_intervals_eq_sort_map _ hd']
  have hmapeq : (ipre ++ e :: ipost).map normalize_interval =
      (ipre ++ e' :: ipost).map normalize_interval := by
    simp [hnorm]
  rw [hmapeq]

theorem all_congr {α : Type} {l : List α} {p q : α → Bool}
    (h : ∀ x ∈ l, p x = q x) : l.all p = l.all q := by
  induction l with
  | nil => rfl
  | cons x rest ih =>
      simp only [List.all_cons]
      rw [h x (by simp), ih (fun y hy => h y (by simp [hy]))]

theorem lookup_replace {β : Type} (pre post : List (String × β)) (tag : String)
    (v v' : β) (t : String) :
    (List.lookup t (pre ++ (tag, v) :: post) = List.lookup t (pre ++ (tag, v') :: post)) ∨
    (List.lookup t (pre ++ (tag, v) :: post) = some v ∧
      List.lookup t (pre ++ (tag, v') :: post) = some v') := by
  induction pre with
  | nil =>
      simp only [List.nil_append, List.lookup]
      cases ht : (t == tag) with
      | true => right; exact ⟨rfl, rfl⟩
      | false => left; rfl
  | cons p rest ih =>
      simp only [List.cons_append, List.lookup]
      cases ht : (t == p.1) with
      | true => left; rfl
      | false => exact ih

/-- The verdict of `axis_space_equal` depends on each tag's interval list
only through its normalized form. -/
theorem axis_space_equal_congr (pre post : AxisSpace) (tag : String)
    {ivs ivs' : List AxisInterval}
    (h : normalize_intervals ivs = normalize_intervals ivs') (s2 : AxisSpace) :
    (axis_space_equal (pre ++ (tag, ivs) :: post) s2 =
      axis_space_equal (pre ++ (tag, ivs') :: post) s2) ∧
    (axis_space_equal s2 (pre ++ (tag, ivs) :: post) =
      axis_space_equal s2 (pre ++ (tag, ivs') :: post)) := by
  constructor
  · rw [axis_space_equal, axis_space_equal]
    have hlen : (pre ++ (tag, ivs) :: post).length = (pre ++ (tag, ivs') :: post).length := by
      simp
    rw [hlen]
    congr 1
    simp only [List.all_append, List.all_cons]
    congr 1
    cases s2.lookup tag with
    | none => rfl
    | some ivs2 =>
        dsimp only
        rw [axis_intervals_equal, axis_intervals_equal, h]
  · rw [axis_space_equal, axis_space_equal]
    have hlen : (pre ++ (tag, ivs) :: post).length = (pre ++ (tag, ivs') :: post).length := by
      simp
    rw [hlen]
    congr 1
    apply all_congr
    intro p _
    rcases lookup_replace pre post tag ivs ivs' p.1 with hsame | ⟨h1, h2⟩
    · rw [hsame]
    · rw [h1, h2]
      dsimp only
      rw [axis_intervals_equal, axis_intervals_equal, ← h]

theorem axis_space_equal_refl {a : AxisSpace} (hnd : (a.map Prod.fst).Nodup) :
    axis_space_equal a a = true := by
  rw [axis_space_equal]
  simp only [Bool.and_eq_true, beq_self_eq_true, true_and]
  rw [List.all_eq_true]
  intro p hp
  rw [lookup_eq_of_mem_nodup hnd (by simpa using hp)]
  simp [axis_intervals_equal]

/-- Unpack a `true` verdict of `axis_space_equal`: equal sizes, every tag of
the first space found in the second with the same normalized intervals, and
equal key sets. -/
theorem axis_space_equal_spec {a b : AxisSpace}
    (hna : (a.map Prod.fst).Nodup) (hnb : (b.map Prod.fst).Nodup)
    (h : axis_space_equal a b = true) :
    a.length = b.length ∧
    (∀ tag ivs, (tag, ivs) ∈ a → ∃ ivs2, b.lookup tag = some ivs2 ∧
      normalize_intervals ivs = normalize_intervals ivs2) ∧
    (∀ t, t ∈ a.map Prod.fst ↔ t ∈ b.map Prod.fst) := by
  rw [axis_space_equal, Bool.and_eq_true, List.all_eq_true] at h
  obtain ⟨hlen, hall⟩ := h
  have hlen' : a.length = b.length := by simpa using hlen
  have hmem : ∀ tag ivs, (tag, ivs) ∈ a → ∃ ivs2, b.lookup tag = some ivs2 ∧
      normalize_intervals ivs = normalize_intervals ivs2 := by
    intro tag ivs hmem
    have := hall (tag, ivs) hmem
    cases hl : b.lookup tag with
    | none => rw [hl] at this; simp at this
    | some ivs2 =>
        rw [hl] at this
        dsimp only at this
        rw [axis_intervals_equal] at this
        exact ⟨ivs2, rfl, by simpa using this⟩
  refine ⟨hlen', hmem, ?_⟩
  have hsub : ∀ t ∈ a.map Prod.fst, t ∈ b.map Prod.fst := by
    intro t ht
    obtain ⟨p, hp, rfl⟩ := List.mem_map.mp ht
    obtain ⟨ivs2, hl, -⟩ := hmem p.1 p.2 (by simpa using hp)
    exact List.mem_map.mpr ⟨(p.1, ivs2), lookup_some_mem hl, rfl⟩
  have hcard : (a.map Prod.fst).toFinset = (b.map Prod.fst).toFinset := by
    apply Finset.eq_of_subset_of_card_le
    · intro t ht
      rw [List.mem_toFinset] at ht ⊢
      exact hsub t ht
    · rw [List.toFinset_card_of_nodup hnb, List.toFinset_card_of_nodup hna]
      simp only [List.length_map]
      omega
  intro t
  constructor
  · exact hsub t
  · intro ht
    have : t ∈ (b.map Prod.fst).toFinset := List.mem_toFinset.mpr ht
    rw [← hcard] at this
    exact List.mem_toFinset.mp this

theorem axis_space_equal_symm_aux {a b : AxisSpace}
    (hna : (a.map Prod.fst).Nodup) (hnb : (b.map Prod.fst).Nodup)
    (h : axis_space_equal a b = true) : axis_space_equal b a = true := by
  obtain ⟨hlen, hmem, hkeys⟩ := axis_space_equal_spec hna hnb h
  rw [axis_space_equal, Bool.and_eq_true, List.all_eq_true]
  constructor
  · simp only [beq_iff_eq]
    omega
  · intro q hq
    have htag : q.1 ∈ a.map Prod.fst := (hkeys q.1).mpr (List.mem_map.mpr ⟨q, hq, rfl⟩)
    obtain ⟨p, hp, hp1⟩ := List.mem_map.mp htag
    obtain ⟨ivs2, hl, hn⟩ := hmem p.1 p.2 (by simpa using hp)
    have hlb : b.lookup q.1 = some q.2 := lookup_eq_of_mem_nodup hnb (by simpa using hq)
    rw [hp1] at hl
    rw [hl] at hlb
    simp only [Option.some.injEq] at hlb
    have hla : a.lookup q.1 = some p.2 := by
      rw [← hp1]
      exact lookup_eq_of_mem_nodup hna (by simpa using hp)
    rw [hla]
    dsimp only
    rw [axis_intervals_equal]
    rw [← hlb, ← hn]
    simp

/-- Pointwise coverage is invariant under `normalize_interval`. -/
theorem covered_normalize_interval (iv : AxisInterval) (x : ℚ) :
    ((normalize_interval iv).astart ≤ x ∧
      x ≤ (normalize_interval iv).aend.getD (normalize_interval iv).astart) ↔
    (iv.astart ≤ x ∧ x ≤ iv.aend.getD iv.astart) := by
  rw [normalize_interval]
  cases iv.aend with
  | none => simp
  | some e =>
      dsimp only
      split
      · rename_i heq
        simp [Option.getD, ← heq]
      · simp [Option.getD]

theorem covers_normalize (ivs : List AxisInterval) (x : ℚ) :
    covers (normalize_intervals ivs) x ↔ covers ivs x := by
  rw [covers, covers, normalize_intervals]
  constructor
  · rintro ⟨iv, hmem, hcov⟩
    obtain ⟨iv0, hmem0, rfl⟩ := List.mem_map.mp hmem
    have hmem1 : iv0 ∈ ivs := (List.perm_insertionSort _ ivs).subset hmem0
    exact ⟨iv0, hmem1, (covered_normalize_interval iv0 x).mp hcov⟩
  · rintro ⟨iv, hmem, hcov⟩
    have hmem1 : iv ∈ ivs.insertionSort (fun a b => a.astart ≤ b.astart) :=
      (List.perm_insertionSort _ ivs).symm.subset hmem
    exact ⟨normalize_interval iv, List.mem_map.mpr ⟨iv, hmem1, rfl⟩,
      (covered_normalize_interval iv x).mpr hcov⟩

/-- Spaces judged equal cover the same values for every tag. -/
theorem axis_space_equal_covers {a b : AxisSpace}
    (hna : (a.map Prod.fst).Nodup) (hnb : (b.map Prod.fst).Nodup)
    (h : axis_space_equal a b = true) :
    ∀ (tag : String) (x : ℚ), spaceCovers a tag x ↔ spaceCovers b tag x := by
  obtain ⟨-, hmem, hkeys⟩ := axis_space_equal_spec hna hnb h
  intro tag x
  rw [spaceCovers, spaceCovers]
  cases hla : a.lookup tag with
  | none =>
      have hta : tag ∉ a.map Prod.fst := lookup_none_iff.mp hla
      have htb : tag ∉ b.map Prod.fst := fun ht => hta ((hkeys tag).mpr ht)
      rw [lookup_none_iff.mpr htb]
  | some ivsa =>
      obtain ⟨ivs2, hlb, hn⟩ := hmem tag ivsa (lookup_some_mem hla)
      rw [hlb]
      dsimp only
      rw [← covers_normalize ivsa x, ← covers_normalize ivs2 x, hn]

/-- C6: `axis_space_equal` is reflexive and symmetric on well-formed spaces
(distinct dict keys); its verdict is unchanged by reordering a tag's interval
list (distinct starts, as the data-model disjointness invariant guarantees)
and by swapping a point `{start: x}` with the degenerate range
`{start: x, end: x}`; and spaces that differ in the covered value set of some
tag are judged unequal. -/
theorem C6_axis_space_equal_props :
    (∀ a : AxisSpace, (a.map Prod.fst).Nodup → axis_space_equal a a = true) ∧
    (∀ a b : AxisSpace, (a.map Prod.fst).Nodup → (b.map Prod.fst).Nodup →
      axis_space_equal a b = axis_space_equal b a) ∧
    (∀ (pre post : AxisSpace) (tag : String) (ivs ivs' : List AxisInterval)
        (s2 : AxisSpace), ivs.Perm ivs' →
      ivs.Pairwise (fun i j => i.astart ≠ j.astart) →
      (axis_space_equal (pre ++ (tag, ivs) :: post) s2 =
        axis_space_equal (pre ++ (tag, ivs') :: post) s2) ∧
      (axis_space_equal s2 (pre ++ (tag, ivs) :: post) =
        axis_space_equal s2 (pre ++ (tag, ivs') :: post))) ∧
    (∀ (pre post : AxisSpace) (tag : String) (ipre ipost : List AxisInterval)
        (x : ℚ) (s2 : AxisSpace),
      (ipre ++ (⟨x, none⟩ : AxisInterval) :: ipost).Pairwise
        (fun i j => i.astart ≠ j.astart) →
      (axis_space_equal (pre ++ (tag, ipre ++ ⟨x, none⟩ :: ipost) :: post) s2 =
        axis_space_equal (pre ++ (tag, ipre ++ ⟨x, some x⟩ :: ipost) :: post) s2) ∧
      (axis_space_equal s2 (pre ++ (tag, ipre ++ ⟨x, none⟩ :: ipost) :: post) =
        axis_space_equal s2 (pre ++ (tag, ipre ++ ⟨x, some x⟩ :: ipost) :: post))) ∧
    (∀ a b : AxisSpace, (a.map Prod.fst).Nodup → (b.map Prod.fst).Nodup →
      (∃ tag x, ¬(spaceCovers a tag x ↔ spaceCovers b tag x)) →
      axis_space_equal a b = false) := by
  refine ⟨fun a hnd => axis_space_equal_refl hnd, ?_, ?_, ?_, ?_⟩
  · intro a b hna hnb
    cases hab : axis_space_equal a b with
    | true =>
        exact (axis_space_equal_symm_aux hna hnb hab).symm
    | false =>
        cases hba : axis_space_equal b a with
        | true => rw [← hab, axis_space_equal_symm_aux hnb hna hba]
        | false => rfl
  · intro pre post tag ivs ivs' s2 hperm hd
    exact axis_space_equal_congr pre post tag (normalize_intervals_perm hperm hd) s2
  · intro pre post tag ipre ipost x s2 hd
    refine axis_space_equal_congr pre post tag ?_ s2
    exact (@normalize_intervals_replace ipre ipost ⟨x, none⟩ ⟨x, some x⟩ rfl
      (by rw [normalize_interval, normalize_interval]; simp) hd).symm ▸
      (@normalize_intervals_replace ipre ipost ⟨x, none⟩ ⟨x, some x⟩ rfl
      (by rw [normalize_interval, normalize_interval]; simp) hd)
  · intro a b hna hnb hex
    cases hab : axis_space_equal a b with
    | false => rfl
    | true =>
        obtain ⟨tag, x, hx⟩ := hex
        exact absurd (axis_space_equal_covers hna hnb hab tag x) hx

/-- Witness for C6 at concrete spaces. -/
theorem C6_witness :
    axis_space_equal [("wght", [⟨1, some 3⟩])] [("wght", [⟨1, some 3⟩])] = true ∧
    (axis_space_equal [("wght", [⟨1, some 3⟩])] [("wdth", [⟨1, some 3⟩])] =
      axis_space_equal [("wdth", [⟨1, some 3⟩])] [("wght", [⟨1, some 3⟩])]) ∧
    (axis_space_equal [("wght", [⟨1, some 3⟩, ⟨5, some 7⟩])] [] =
      axis_space_equal [("wght", [⟨5, some 7⟩, ⟨1, some 3⟩])] []) ∧
    (axis_space_equal [("wght", [(⟨2, none⟩ : AxisInterval)])] [] =
      axis_space_equal [("wght", [(⟨2, some 2⟩ : AxisInterval)])] []) ∧
    axis_space_equal [("wght", [(⟨1, some 3⟩ : AxisInterval)])]
      [("wght", [(⟨1, some 4⟩ : AxisInterval)])] = false := by
  obtain ⟨h1, h2, h3, h4, h5⟩ := C6_axis_space_equal_props
  refine ⟨?_, ?_, ?_, ?_, ?_⟩
  · exact h1 [("wght", [⟨1, some 3⟩])] (by simp)
  · exact h2 [("wght", [⟨1, some 3⟩])] [("wdth", [⟨1, some 3⟩])] (by simp) (by simp)
  · exact (h3 [] [] "wght" [⟨1, some 3⟩, ⟨5, some 7⟩] [⟨5, some 7⟩, ⟨1, some 3⟩] []
      (by decide) (by decide)).1
  · exact (h4 [] [] "wght" [] [] 2 [] (by decide)).1
  · refine h5 _ _ (by simp) (by simp) ⟨"wght", 4, ?_⟩
    intro hiff
    have hcb : spaceCovers [("wght", [(⟨1, some 4⟩ : AxisInterval)])] "wght" 4 := by
      rw [spaceCovers]
      have : List.lookup "wght" [("wght", [(⟨1, some 4⟩ : AxisInterval)])] =
          some [⟨1, some 4⟩] := by rfl
      rw [this]
      exact ⟨⟨1, some 4⟩, by simp, by norm_num, by norm_num [Option.getD]⟩
    have hca := hiff.mpr hcb
    rw [spaceCovers] at hca
    have : List.lookup "wght" [("wght", [(⟨1, some 3⟩ : AxisInterval)])] =
        some [⟨1, some 3⟩] := by rfl
    rw [this] at hca
    obtain ⟨iv, hmem, hle1, hle2⟩ := hca
    simp only [List.mem_singleton] at hmem
    subst hmem
    norm_num [Option.getD] at hle2

/-! ## font_util.py

`add_intervals` works on closed intervals `{0: start, 1: end}` with both ends
present; values are again modelled as rationals. -/

structure CInterval where
  lo : ℚ
  hi : ℚ
deriving DecidableEq, Repr

/-- `intersects(interval_1, interval_2)`. -/
def intersects (i1 i2 : CInterval) : Bool :=
  decide (i2.lo ≤ i1.hi) && decide (i1.lo ≤ i2.hi)

/-- `union(interval_1, interval_2)`. -/
def cunion (i1 i2 : CInterval) : CInterval :=
  ⟨min i1.lo i2.lo, max i1.hi i2.hi⟩

/-- The inner `while` of the merge pass: absorb successive intersecting
neighbours into `current`. -/
def mergeRun (current : CInterval) : List CInterval → CInterval × List CInterval
  | [] => (current, [])
  | b :: rest =>
      if intersects current b then mergeRun (cunion current b) rest
      else (current, b :: rest)

theorem mergeRun_length (l : List CInterval) :
    ∀ current, (mergeRun current l).2.length ≤ l.length := by
  induction l with
  | nil => intro current; simp [mergeRun]
  | cons b rest ih =>
      intro current
      rw [mergeRun]
      by_cases h : intersects current b = true
      · rw [if_pos h]
        have := ih (cunion current b)
        simp only [List.length_cons]
        omega
      · rw [if_neg h]

/-- The outer merge loop of `add_intervals`. -/
def mergePass : List CInterval → List CInterval
  | [] => []
  | a :: rest =>
      (mergeRun a rest).1 :: mergePass (mergeRun a rest).2
termination_by l => l.length
decreasing_by
  simp only [List.length_cons]
  exact Nat.lt_succ_of_le (mergeRun_length _ _)

/-- `add_intervals(intervals, interval)`: insert at the `bisect` position
(after every entry whose start is not greater) and merge every run of
intersecting neighbours. -/
def add_intervals (intervals : List CInterval) (interval : CInterval) : List CInterval :=
  mergePass (intervals.takeWhile (fun a => decide (a.lo ≤ interval.lo)) ++
    interval :: intervals.dropWhile (fun a => decide (a.lo ≤ interval.lo)))

/-- Every interval of the list is nonempty (`start ≤ end`). -/
def CValid (l : List CInterval) : Prop := ∀ i ∈ l, i.lo ≤ i.hi

/-- Nondecreasing starts. -/
def SortedLo (l : List CInterval) : Prop :=
  l.Chain' (fun a b => a.lo ≤ b.lo)

/-- The invariant `add_intervals` maintains: nonempty intervals, sorted and
pairwise non-intersecting (a strict gap between consecutive ends and
starts). -/
def GoodList (l : List CInterval) : Prop :=
  CValid l ∧ l.Chain' (fun a b => a.hi < b.lo)

/-- The set of values covered by a list of intervals. -/
def unionSet (l : List CInterval) : Set ℚ := {x | ∃ i ∈ l, i.lo ≤ x ∧ x ≤ i.hi}

theorem unionSet_nil : unionSet [] = ∅ := by
  rw [unionSet]
  ext x
  simp

theorem unionSet_cons (i : CInterval) (l : List CInterval) :
    unionSet (i :: l) = Set.Icc i.lo i.hi ∪ unionSet l := by
  ext x
  simp only [unionSet, Set.mem_setOf_eq, Set.mem_union, Set.mem_Icc, List.mem_cons]
  constructor
  · rintro ⟨j, rfl | hj, h1, h2⟩
    · exact Or.inl ⟨h1, h2⟩
    · exact Or.inr ⟨j, hj, h1, h2⟩
  · rintro (⟨h1, h2⟩ | ⟨j, hj, h1, h2⟩)
    · exact ⟨i, Or.inl rfl, h1, h2⟩
    · exact ⟨j, Or.inr hj, h1, h2⟩

theorem goodList_sortedLo {l : List CInterval} (h : GoodList l) : SortedLo l := by
  obtain ⟨hv, hc⟩ := h
  rw [SortedLo]
  induction l with
  | nil => exact List.chain'_nil
  | cons a rest ih =>
      cases rest with
      | nil => simp
      | cons b rest' =>
          rw [List.chain'_cons] at hc ⊢
          obtain ⟨hab, hc'⟩ := hc
          have hbv : b.lo ≤ b.hi := hv b (by simp)
          refine ⟨?_, ?_⟩
          · have := hv a (by simp)
            linarith
          · exact ih (fun i hi => hv i (by simp [List.mem_cons] at hi ⊢; tauto)) hc'

/-- The smallest start of a sorted list is its head's. -/
theorem sortedLo_head_lo {l : List CInterval} (h : SortedLo l) :
    ∀ x ∈ l.head?, ∀ j ∈ l, x.lo ≤ j.lo := by
  haveI : IsTrans CInterval (fun p q : CInterval => p.lo ≤ q.lo) :=
    ⟨fun _ _ _ => le_trans⟩
  intro x hx j hj
  cases l with
  | nil => simp at hj
  | cons a rest =>
      simp only [List.head?, Option.mem_def, Option.some.injEq] at hx
      have hp : List.Pairwise (fun p q : CInterval => p.lo ≤ q.lo) (a :: rest) :=
        List.chain'_iff_pairwise.mp h
      rcases List.mem_cons.mp hj with h1 | h1
      · subst h1
        exact le_of_eq (by rw [hx])
      · rw [← hx]
        exact (List.pairwise_cons.mp hp).1 j h1

/-- The hull of two intersecting nonempty closed intervals covers exactly
their union. -/
theorem icc_cunion_of_intersects {a b : CInterval} (ha : a.lo ≤ a.hi) (hb : b.lo ≤ b.hi)
    (h : intersects a b = true) :
    Set.Icc (cunion a b).lo (cunion a b).hi = Set.Icc a.lo a.hi ∪ Set.Icc b.lo b.hi := by
  rw [intersects, Bool.and_eq_true, decide_eq_true_eq, decide_eq_true_eq] at h
  obtain ⟨h1, h2⟩ := h
  ext x
  simp only [cunion, Set.mem_Icc, Set.mem_union]
  constructor
  · rintro ⟨hx1, hx2⟩
    rw [min_le_iff] at hx1
    rw [le_max_iff] at hx2
    by_cases hcase : x ≤ a.hi
    · by_cases hcase2 : a.lo ≤ x
      · exact Or.inl ⟨hcase2, hcase⟩
      · push_neg at hcase2
        rcases hx1 with h3 | h3
        · linarith
        · exact Or.inr ⟨h3, by linarith⟩
    · push_neg at hcase
      rcases hx2 with h3 | h3
      · linarith
      · exact Or.inr ⟨by linarith, h3⟩
  · rintro (⟨hx1, hx2⟩ | ⟨hx1, hx2⟩)
    · exact ⟨le_trans (min_le_left _ _) hx1, le_trans hx2 (le_max_left _ _)⟩
    · exact ⟨le_trans (min_le_right _ _) hx1, le_trans hx2 (le_max_right _ _)⟩

/-- Full characterization of the inner merge loop on a start-sorted list of
nonempty intervals whose heads start at or after `current.lo`. -/
theorem mergeRun_spec (l : List CInterval) :
    ∀ (current : CInterval), current.lo ≤ current.hi →
      CValid l → SortedLo l →
      (∀ x ∈ l.head?, current.lo ≤ x.lo) →
      ∀ c r, mergeRun current l = (c, r) →
        c.lo = current.lo ∧ current.hi ≤ c.hi ∧ c.lo ≤ c.hi ∧
        CValid r ∧ SortedLo r ∧
        (∀ x ∈ r.head?, c.hi < x.lo) ∧
        (Set.Icc c.lo c.hi ∪ unionSet r =
          Set.Icc current.lo current.hi ∪ unionSet l) := by
  induction l with
  | nil =>
      intro current hcur _ _ _ c r heq
      rw [mergeRun] at heq
      simp only [Prod.mk.injEq] at heq
      obtain ⟨rfl, rfl⟩ := heq
      refine ⟨rfl, le_refl _, hcur, ?_, ?_, ?_, ?_⟩
      · intro i hi; simp at hi
      · exact List.chain'_nil
      · intro x hx; simp at hx
      · rw [unionSet_nil]
  | cons b rest ih =>
      intro current hcur hval hsort hhead c r heq
      have hb : b.lo ≤ b.hi := hval b (by simp)
      have hblo : current.lo ≤ b.lo := hhead b rfl
      rw [mergeRun] at heq
      by_cases hint : intersects current b = true
      · rw [if_pos hint] at heq
        have hint' := hint
        rw [intersects, Bool.and_eq_true, decide_eq_true_eq, decide_eq_true_eq] at hint'
        obtain ⟨hi1, hi2⟩ := hint'
        have hcu : (cunion current b).lo ≤ (cunion current b).hi := by
          rw [cunion]
          simp only [le_max_iff, min_le_iff]
          left; left; exact hcur
        have hrest_sort : SortedLo rest := (List.chain'_cons'.mp hsort).2
        have hrest_val : CValid rest := fun i hi => hval i (by simp [hi])
        have hrest_head : ∀ x ∈ rest.head?, (cunion current b).lo ≤ x.lo := by
          intro x hx
          have hbx : b.lo ≤ x.lo := (List.chain'_cons'.mp hsort).1 x hx
          rw [cunion]
          simp only [min_le_iff]
          right; exact hbx
        obtain ⟨hc1, hc2, hc3, hc4, hc5, hc6, hc7⟩ :=
          ih (cunion current b) hcu hrest_val hrest_sort hrest_head c r heq
        have hmin : (cunion current b).lo = current.lo := by
          rw [cunion]
          exact min_eq_left hblo
        refine ⟨by rw [hc1, hmin], ?_, hc3, hc4, hc5, hc6, ?_⟩
        · calc current.hi ≤ (cunion current b).hi := by
                rw [cunion]; exact le_max_left _ _
            _ ≤ c.hi := hc2
        · rw [hc7, unionSet_cons, icc_cunion_of_intersects hcur hb hint, Set.union_assoc]
      · rw [if_neg hint] at heq
        simp only [Prod.mk.injEq] at heq
        obtain ⟨rfl, rfl⟩ := heq
        have hgap : current.hi < b.lo := by
          rw [intersects] at hint
          simp only [Bool.and_eq_true, decide_eq_true_eq, not_and_or] at hint
          rcases hint with h3 | h3
          · exact lt_of_not_le fun hx => h3 (by simpa using hx)
          · exact absurd (le_trans hblo hb) (by simpa using h3)
        refine ⟨rfl, le_refl _, hcur, hval, hsort, ?_, rfl⟩
        intro x hx
        simp only [List.head?, Option.mem_def, Option.some.injEq] at hx
        rw [← hx]
        exact hgap

/-- The outer merge pass turns any valid start-sorted list into a canonical
disjoint list with the same union, keeping the first start. -/
theorem mergePass_spec (n : Nat) :
    ∀ (l : List CInterval), l.length ≤ n → CValid l → SortedLo l →
      GoodList (mergePass l) ∧ unionSet (mergePass l) = unionSet l ∧
      (∀ x ∈ (mergePass l).head?, ∀ y ∈ l.head?, x.lo = y.lo) := by
  induction n with
  | zero =>
      intro l hlen _ _
      have : l = [] := List.eq_nil_of_length_eq_zero (Nat.le_zero.mp hlen)
      subst this
      rw [mergePass]
      refine ⟨⟨fun i hi => absurd hi (by simp), List.chain'_nil⟩, rfl, ?_⟩
      intro x hx; simp at hx
  | succ n ih =>
      intro l hlen hval hsort
      match l with
      | [] =>
          rw [mergePass]
          refine ⟨⟨fun i hi => absurd hi (by simp), List.chain'_nil⟩, rfl, ?_⟩
          intro x hx; simp at hx
      | a :: rest =>
          have ha : a.lo ≤ a.hi := hval a (by simp)
          have hrest_val : CValid rest := fun i hi => hval i (by simp [hi])
          have hrest_sort : SortedLo rest := (List.chain'_cons'.mp hsort).2
          have hrest_head : ∀ x ∈ rest.head?, a.lo ≤ x.lo :=
            (List.chain'_cons'.mp hsort).1
          have heq : mergeRun a rest = ((mergeRun a rest).1, (mergeRun a rest).2) := rfl
          obtain ⟨hc1, hc2, hc3, hc4, hc5, hc6, hc7⟩ :=
            mergeRun_spec rest a ha hrest_val hrest_sort hrest_head
              (mergeRun a rest).1 (mergeRun a rest).2 heq
          have hrlen : (mergeRun a rest).2.length ≤ n := by
            have := mergeRun_length rest a
            simp only [List.length_cons] at hlen
            omega
          obtain ⟨hg, hu, hh⟩ := ih (mergeRun a rest).2 hrlen hc4 hc5
          rw [mergePass]
          refine ⟨⟨?_, ?_⟩, ?_, ?_⟩
          · intro i hi
            rcases List.mem_cons.mp hi with h | h
            · rw [h]; exact hc3
            · exact hg.1 i h
          · rw [List.chain'_cons']
            refine ⟨?_, hg.2⟩
            intro x hx
            match hmr : mergePass (mergeRun a rest).2 with
            | [] => rw [hmr] at hx; simp at hx
            | z :: zs =>
                rw [hmr] at hx
                simp only [List.head?, Option.mem_def, Option.some.injEq] at hx
                match hr2 : (mergeRun a rest).2 with
                | [] =>
                    rw [hr2, mergePass] at hmr
                    exact absurd hmr (by simp)
                | w :: ws =>
                    have hxw : x.lo = w.lo := by
                      have := hh x (by rw [hmr, ← hx]; rfl) w (by rw [hr2]; rfl)
                      exact this
                    rw [hxw]
                    exact hc6 w (by rw [hr2]; rfl)
          · rw [unionSet_cons, hu, hc7, unionSet_cons]
          · intro x hx y hy
            simp only [List.head?, Option.mem_def, Option.some.injEq] at hx hy
            rw [← hx, ← hy, hc1]

/-- Members of the bisect-insertion of `i` into `l` are `i` or members of `l`. -/
theorem insert_mem {l : List CInterval} {i j : CInterval}
    (h : j ∈ l.takeWhile (fun a => decide (a.lo ≤ i.lo)) ++
          i :: l.dropWhile (fun a => decide (a.lo ≤ i.lo))) :
    j = i ∨ j ∈ l := by
  rcases List.mem_append.mp h with h1 | h1
  · exact Or.inr ((List.takeWhile_prefix _).subset h1)
  · rcases List.mem_cons.mp h1 with h2 | h2
    · exact Or.inl h2
    · exact Or.inr ((List.dropWhile_suffix _).subset h2)

/-- Bisect insertion into a start-sorted list stays start-sorted. -/
theorem insert_sortedLo {l : List CInterval} (i : CInterval) (hs : SortedLo l) :
    SortedLo (l.takeWhile (fun a => decide (a.lo ≤ i.lo)) ++
      i :: l.dropWhile (fun a => decide (a.lo ≤ i.lo))) := by
  rw [SortedLo, List.chain'_append]
  refine ⟨ hs.prefix (List.takeWhile_prefix _), ?_, ?_⟩
  · rw [List.chain'_cons']
    refine ⟨?_, hs.suffix (List.dropWhile_suffix _)⟩
    intro y hy
    have hhead := List.head?_dropWhile_not (fun a => decide (a.lo ≤ i.lo)) l
    cases hhd : (l.dropWhile (fun a => decide (a.lo ≤ i.lo))).head? with
    | none => rw [hhd] at hy; exact absurd hy (by simp)
    | some z =>
        rw [hhd] at hy hhead
        dsimp only at hhead
        simp only [Option.mem_def, Option.some.injEq] at hy
        simp only [decide_eq_false_iff_not] at hhead
        rw [← hy]
        exact le_of_not_le hhead
  · intro x hx y hy
    have hxmem : x ∈ l.takeWhile (fun a => decide (a.lo ≤ i.lo)) := by
      cases hgl : (l.takeWhile (fun a => decide (a.lo ≤ i.lo))).getLast? with
      | none => rw [hgl] at hx; exact absurd hx (by simp)
      | some z =>
          rw [hgl] at hx
          simp only [Option.mem_def, Option.some.injEq] at hx
          rw [← hx]
          exact List.mem_of_mem_getLast? hgl
    have hxle := List.mem_takeWhile_imp hxmem
    simp only [decide_eq_true_eq] at hxle
    have hyi : y = i := by
      simp only [List.head?, Option.mem_def, Option.some.injEq] at hy
      exact hy.symm
    rw [hyi]
    exact hxle

theorem unionSet_append (l1 l2 : List CInterval) :
    unionSet (l1 ++ l2) = unionSet l1 ∪ unionSet l2 := by
  induction l1 with
  | nil => rw [List.nil_append, unionSet_nil, Set.empty_union]
  | cons a rest ih =>
      rw [List.cons_append, unionSet_cons, unionSet_cons, ih, Set.union_assoc]

/-- `add_intervals` keeps the disjoint-sorted invariant and adds exactly the
new interval's coverage. -/
theorem add_intervals_spec {l : List CInterval} {i : CInterval}
    (hg : GoodList l) (hi : i.lo ≤ i.hi) :
    GoodList (add_intervals l i) ∧
      unionSet (add_intervals l i) = unionSet l ∪ Set.Icc i.lo i.hi := by
  have hval : CValid l := hg.1
  have hsort : SortedLo l := goodList_sortedLo hg
  have hins_val : CValid (l.takeWhile (fun a => decide (a.lo ≤ i.lo)) ++
      i :: l.dropWhile (fun a => decide (a.lo ≤ i.lo))) := by
    intro j hj
    rcases insert_mem hj with h | h
    · rw [h]; exact hi
    · exact hval j h
  have hins_sort := insert_sortedLo i hsort
  obtain ⟨hgm, hum, _⟩ :=
    mergePass_spec (l.takeWhile (fun a => decide (a.lo ≤ i.lo)) ++
        i :: l.dropWhile (fun a => decide (a.lo ≤ i.lo))).length
      (l.takeWhile (fun a => decide (a.lo ≤ i.lo)) ++
        i :: l.dropWhile (fun a => decide (a.lo ≤ i.lo)))
      (le_refl _) hins_val hins_sort
  rw [add_intervals]
  refine ⟨hgm, ?_⟩
  rw [hum, unionSet_append, unionSet_cons]
  have hsplit : unionSet l =
      unionSet (l.takeWhile (fun a => decide (a.lo ≤ i.lo))) ∪
      unionSet (l.dropWhile (fun a => decide (a.lo ≤ i.lo))) := by
    conv_lhs => rw [← List.takeWhile_append_dropWhile (fun a => decide (a.lo ≤ i.lo)) l]
    rw [unionSet_append]
  rw [hsplit]
  ext x
  simp only [Set.mem_union]
  tauto

/-- The tail of a disjoint-sorted list is disjoint-sorted. -/
theorem goodList_tail {a : CInterval} {l : List CInterval}
    (h : GoodList (a :: l)) : GoodList l :=
  ⟨fun i hi => h.1 i (by simp [hi]), (List.chain'_cons'.mp h.2).2⟩

/-- In a disjoint-sorted list every later interval starts strictly after the
head ends. -/
theorem goodList_head_gap {a : CInterval} {l : List CInterval}
    (h : GoodList (a :: l)) : ∀ j ∈ l, a.hi < j.lo := by
  intro j hj
  match l with
  | [] => exact absurd hj (by simp)
  | b :: rest =>
      have hab : a.hi < b.lo := (List.chain'_cons'.mp h.2).1 b rfl
      have hsort : SortedLo (b :: rest) := goodList_sortedLo (goodList_tail h)
      have hbj : b.lo ≤ j.lo := sortedLo_head_lo hsort b rfl j hj
      linarith

/-- The union of the tail of a disjoint-sorted list is the part of the whole
union beyond the head's end. -/
theorem goodList_tail_unionSet {a : CInterval} {l : List CInterval}
    (h : GoodList (a :: l)) :
    unionSet l = {x | x ∈ unionSet (a :: l) ∧ a.hi < x} := by
  ext x
  simp only [Set.mem_setOf_eq]
  constructor
  · rintro ⟨j, hj, h1, h2⟩
    have hgap : a.hi < j.lo := goodList_head_gap h j hj
    exact ⟨⟨j, by simp [hj], h1, h2⟩, lt_of_lt_of_le hgap h1⟩
  · rintro ⟨⟨j, hj, h1, h2⟩, hgt⟩
    rcases List.mem_cons.mp hj with rfl | hj'
    · exact absurd h2 (not_le.mpr hgt)
    · exact ⟨j, hj', h1, h2⟩

/-- Two disjoint-sorted lists with the same union and equal head starts have
comparable head ends (density of ℚ separates the head from the rest). -/
theorem goodList_hi_le {a b : CInterval} {L M : List CInterval}
    (hL : GoodList (a :: L)) (hM : GoodList (b :: M))
    (hU : unionSet (a :: L) = unionSet (b :: M)) (hlo : a.lo = b.lo) :
    a.hi ≤ b.hi := by
  by_contra hcon
  push_neg at hcon
  have ha : a.lo ≤ a.hi := hL.1 a (by simp)
  have hb : b.lo ≤ b.hi := hM.1 b (by simp)
  cases M with
  | nil =>
      have hmem : a.hi ∈ unionSet (a :: L) := ⟨a, by simp, ha, le_refl _⟩
      rw [hU] at hmem
      obtain ⟨j, hj, _, h2⟩ := hmem
      have hjb : j = b := by simpa using hj
      rw [hjb] at h2
      linarith
  | cons m M' =>
      have hbm : b.hi < m.lo := (List.chain'_cons'.mp hM.2).1 m rfl
      have hq1 : b.hi < min a.hi ((b.hi + m.lo) / 2) := lt_min hcon (by linarith)
      have hq2 : min a.hi ((b.hi + m.lo) / 2) < m.lo :=
        lt_of_le_of_lt (min_le_right _ _) (by linarith)
      have hq3 : min a.hi ((b.hi + m.lo) / 2) ≤ a.hi := min_le_left _ _
      have hq4 : a.lo ≤ min a.hi ((b.hi + m.lo) / 2) := by rw [hlo]; linarith
      have hmem : min a.hi ((b.hi + m.lo) / 2) ∈ unionSet (a :: L) :=
        ⟨a, by simp, hq4, hq3⟩
      rw [hU] at hmem
      obtain ⟨j, hj, h1, h2⟩ := hmem
      rcases List.mem_cons.mp hj with rfl | hj'
      · linarith
      · have hmj : m.lo ≤ j.lo :=
          sortedLo_head_lo (goodList_sortedLo (goodList_tail hM)) m rfl j hj'
        linarith

/-- A disjoint-sorted interval list is determined by the set it covers. -/
theorem goodList_unique (L : List CInterval) :
    ∀ M, GoodList L → GoodList M → unionSet L = unionSet M → L = M := by
  induction L with
  | nil =>
      intro M hL hM hU
      cases M with
      | nil => rfl
      | cons b M' =>
          have hb : b.lo ≤ b.hi := hM.1 b (by simp)
          have hmem : b.lo ∈ unionSet (b :: M') := ⟨b, by simp, le_refl _, hb⟩
          rw [← hU, unionSet_nil] at hmem
          exact absurd hmem (Set.not_mem_empty _)
  | cons a L' ih =>
      intro M hL hM hU
      cases M with
      | nil =>
          have ha : a.lo ≤ a.hi := hL.1 a (by simp)
          have hmem : a.lo ∈ unionSet (a :: L') := ⟨a, by simp, le_refl _, ha⟩
          rw [hU, unionSet_nil] at hmem
          exact absurd hmem (Set.not_mem_empty _)
      | cons b M' =>
          have ha : a.lo ≤ a.hi := hL.1 a (by simp)
          have hb : b.lo ≤ b.hi := hM.1 b (by simp)
          have hlo : a.lo = b.lo := by
            have h1 : a.lo ∈ unionSet (b :: M') := by
              rw [← hU]; exact ⟨a, by simp, le_refl _, ha⟩
            have h2 : b.lo ∈ unionSet (a :: L') := by
              rw [hU]; exact ⟨b, by simp, le_refl _, hb⟩
            obtain ⟨j, hj, hj1, _⟩ := h1
            obtain ⟨k, hk, hk1, _⟩ := h2
            have hjb : b.lo ≤ j.lo := sortedLo_head_lo (goodList_sortedLo hM) b rfl j hj
            have hka : a.lo ≤ k.lo := sortedLo_head_lo (goodList_sortedLo hL) a rfl k hk
            exact le_antisymm (le_trans hka hk1) (le_trans hjb hj1)
          have hhi : a.hi = b.hi :=
            le_antisymm (goodList_hi_le hL hM hU hlo)
              (goodList_hi_le hM hL hU.symm hlo.symm)
          have hab : a = b := by
            cases a; cases b
            simp only at hlo hhi
            rw [hlo, hhi]
          subst hab
          have htails : unionSet L' = unionSet M' := by
            rw [goodList_tail_unionSet hL, hU, ← goodList_tail_unionSet hM]
          rw [ih M' (goodList_tail hL) (goodList_tail hM) htails]

/-- Folding `add_intervals` over any valid list keeps the invariant and
covers the accumulator plus all folded intervals. -/
theorem foldl_add_intervals_spec (l : List CInterval) :
    ∀ acc, GoodList acc → CValid l →
      GoodList (l.foldl add_intervals acc) ∧
      unionSet (l.foldl add_intervals acc) = unionSet acc ∪ unionSet l := by
  induction l with
  | nil =>
      intro acc hacc _
      exact ⟨hacc, by rw [List.foldl_nil, unionSet_nil, Set.union_empty]⟩
  | cons i rest ih =>
      intro acc hacc hval
      have hi : i.lo ≤ i.hi := hval i (by simp)
      obtain ⟨hg, hu⟩ := add_intervals_spec hacc hi
      obtain ⟨hg2, hu2⟩ := ih (add_intervals acc i) hg (fun j hj => hval j (by simp [hj]))
      rw [List.foldl_cons]
      refine ⟨hg2, ?_⟩
      rw [hu2, hu, unionSet_cons]
      ext x
      simp only [Set.mem_union]
      tauto

/-- The covered set only depends on the members of the list. -/
theorem unionSet_perm {l1 l2 : List CInterval} (h : l1.Perm l2) :
    unionSet l1 = unionSet l2 := by
  ext x
  constructor
  · rintro ⟨j, hj, h1, h2⟩; exact ⟨j, h.mem_iff.mp hj, h1, h2⟩
  · rintro ⟨j, hj, h1, h2⟩; exact ⟨j, h.mem_iff.mpr hj, h1, h2⟩

/-- The empty list satisfies the invariant. -/
theorem goodList_nil : GoodList ([] : List CInterval) :=
  ⟨fun i hi => absurd hi (by simp), List.chain'_nil⟩

/-- C7: order-independence of interval merging. For every finite collection
of closed intervals with both ends present and start ≤ end, folding
`font_util.add_intervals` over the collection starting from the empty list
yields a start-sorted pairwise-disjoint list covering exactly the union of
the inputs, and any two insertion orders (permutations) produce the same
final list. -/
theorem C7_add_intervals_order_independent
    (l1 l2 : List CInterval) (hval : ∀ i ∈ l1, i.lo ≤ i.hi) (hperm : l1.Perm l2) :
    GoodList (l1.foldl add_intervals []) ∧
    unionSet (l1.foldl add_intervals []) = unionSet l1 ∧
    l1.foldl add_intervals [] = l2.foldl add_intervals [] := by
  have hval2 : CValid l2 := fun i hi => hval i (hperm.mem_iff.mpr hi)
  obtain ⟨hg1, hu1⟩ := foldl_add_intervals_spec l1 [] goodList_nil hval
  obtain ⟨hg2, hu2⟩ := foldl_add_intervals_spec l2 [] goodList_nil hval2
  rw [unionSet_nil, Set.empty_union] at hu1 hu2
  refine ⟨hg1, hu1, ?_⟩
  exact goodList_unique _ _ hg1 hg2 (by rw [hu1, hu2]; exact unionSet_perm hperm)

/-- Witness for C7 at a concrete pair of permuted interval lists. -/
theorem C7_witness :
    GoodList ([CInterval.mk 0 1, CInterval.mk 2 3].foldl add_intervals []) ∧
    unionSet ([CInterval.mk 0 1, CInterval.mk 2 3].foldl add_intervals []) =
      unionSet [CInterval.mk 0 1, CInterval.mk 2 3] ∧
    [CInterval.mk 0 1, CInterval.mk 2 3].foldl add_intervals [] =
      [CInterval.mk 2 3, CInterval.mk 0 1].foldl add_intervals [] :=
  C7_add_intervals_order_independent
    [CInterval.mk 0 1, CInterval.mk 2 3]
    [CInterval.mk 2 3, CInterval.mk 0 1]
    (by decide)
    (List.Perm.swap (CInterval.mk 2 3) (CInterval.mk 0 1) [])

/-! ### response_checker.py

A `ResponseChecker` session is modeled by its `tested_ids` set (a list of
rule-id strings). Each check is a state transformer returning the updated
session and either success or the failure it raised: an assertion failure
carries the rule id of its conformance message, and an out-of-band Python
exception (a `KeyError` from a missing dict key) carries "KeyError".
`assertX(cond, self.conform_message(tag, ...))` evaluates the message — and
so records the tag — before the assertion is decided, which the model
mirrors. External effects (fonts, shaping, xdelta3) enter as oracle
parameters. -/

/-- A raw CBOR axis interval as seen by the response checker: either key may
be absent. -/
structure RawInterval where
  rstart : Option ℚ
  rend : Option ℚ
deriving DecidableEq

/-- The `tested_ids` set of a checker session. -/
abbrev Session : Type := List String

/-- `tested(tag)` for a single tag: `set.add`. -/
def tested (tag : String) (s : Session) : Session :=
  if tag ∈ s then s else tag :: s

/-- `tested(tags)` for a list of tags: `set.update`. -/
def testedList (tags : List String) (s : Session) : Session :=
  tags.foldl (fun acc t => tested t acc) s

/-- `conform_message(tag, message)`: records the tag, returns the message. -/
def conform_message (tag : String) (s : Session) : Session × String :=
  (tested tag s, tag)

/-- `conform_message` on a list of tags. -/
def conform_message_list (tags : List String) (s : Session) : Session × String :=
  (testedList tags s, String.intercalate "," tags)

/-- `assertX(cond, self.conform_message(tag, ...))`: the message (and hence
the tag recording) is evaluated first, then the condition decides
pass or abort. -/
def assertThat (cond : Bool) (tag : String) (s : Session) : Session × Except String Unit :=
  ((conform_message tag s).1, if cond then Except.ok () else Except.error (conform_message tag s).2)

/-- `axis_interval_well_formed(interval)`. -/
def axis_interval_well_formed (i : RawInterval) (s : Session) : Session × Except String Unit :=
  match assertThat i.rstart.isSome "conform-axis-interval-start" s with
  | (s1, Except.error e) => (s1, Except.error e)
  | (s1, Except.ok _) =>
      match i.rend with
      | none => (tested "conform-axis-interval-end" s1, Except.ok ())
      | some e => assertThat (decide (i.rstart.getD 0 < e)) "conform-axis-interval-end" s1

/-- The first loop of `axis_space_well_formed`: every interval of one tag is
checked, aborting on the first failure. -/
def intervals_well_formed : List RawInterval → Session → Session × Except String Unit
  | [], s => (s, Except.ok ())
  | i :: rest, s =>
      match axis_interval_well_formed i s with
      | (s1, Except.ok _) => intervals_well_formed rest s1
      | (s1, Except.error e) => (s1, Except.error e)

/-- The disjointness loop of `axis_space_well_formed`:
`assertLess(interval[AXIS_END], next_interval[AXIS_START], ...)` for each
consecutive pair. The subscripts are evaluated before the conformance
message, so a missing key raises `KeyError` without recording the tag. -/
def disjoint_pairs : List RawInterval → Session → Session × Except String Unit
  | a :: b :: rest, s =>
      match a.rend with
      | none => (s, Except.error "KeyError")
      | some ae =>
          match b.rstart with
          | none => (s, Except.error "KeyError")
          | some bs =>
              match assertThat (decide (ae < bs)) "conform-axis-space-disjoint" s with
              | (s1, Except.ok _) => disjoint_pairs (b :: rest) s1
              | (s1, Except.error e) => (s1, Except.error e)
  | _, s => (s, Except.ok ())

/-- `axis_space_well_formed(space)` over the axis space in dict insertion
order. NOTE: the `return` inside the per-tag loop (taken whenever a tag has
at most one interval after sorting) exits the whole method, so the
remaining tags are not examined at all. -/
def axis_space_well_formed : List (String × List RawInterval) → Session → Session × Except String Unit
  | [], s => (s, Except.ok ())
  | (_, intervals) :: rest, s =>
      match intervals_well_formed intervals s with
      | (s1, Except.error e) => (s1, Except.error e)
      | (s1, Except.ok _) =>
          let sortedIntervals :=
            intervals.insertionSort (fun a b => a.rstart.getD 0 ≤ b.rstart.getD 0)
          if sortedIntervals.length ≤ 1 then
            (tested "conform-axis-space-disjoint" s1, Except.ok ())
          else
            match disjoint_pairs sortedIntervals s1 with
            | (s2, Except.error e) => (s2, Except.error e)
            | (s2, Except.ok _) => axis_space_well_formed rest s2

/-- `is_error_400(extra_tag)` against the session's status code. -/
def is_error_400 (status : Nat) (extra : Option String) (s : Session) : Session × Except String Unit :=
  let tags := "conform-reject-malformed-request" ::
    (match extra with | some t => [t] | none => [])
  ((conform_message_list tags s).1,
    if status = 400 then Except.ok () else Except.error (conform_message_list tags s).2)

/-- `format_in(patch_formats)` for the response's patch format. -/
def format_in (fmt : Nat) (fmts : List Nat) (s : Session) : Session × Except String Unit :=
  assertThat (decide (fmt ∈ fmts)) "conform-response-patch-format" s

/-- `integer_list_well_formed(int_list)`: attempts `integer_list.decode` and
asserts no conformance error was raised. -/
def integer_list_well_formed (bs : List Nat) (s : Session) : Session × Except String Unit :=
  assertThat (match decode bs with | Except.ok _ => true | Except.error _ => false)
    "conform-uintbase128-illegal" s

/-- `patched_checksum_matches(font_data)`: the conformance message (with its
tag) is built by the caller before `checksum_matches` asserts equality with
`fast_hash.compute`. -/
def patched_checksum_matches (fontData : List Nat) (patchedChecksum : Nat)
    (s : Session) : Session × Except String Unit :=
  assertThat (decide (compute fontData = patchedChecksum))
    "conform-response-patched-checksum" s

/-- `font_has_at_least_codepoints(font_data, subset, additional ids)` with
the font's codepoint set and the shaping comparison as oracles. -/
def font_has_at_least_codepoints (fontCps : List Nat) (subset : List Nat)
    (extraIds : List String) (shapingOk : Bool) (s : Session) : Session × Except String Unit :=
  let tags := "conform-response-subset" :: extraIds
  let s1 := (conform_message_list tags s).1
  if subset.all (fun c => decide (c ∈ fontCps)) then
    assertThat shapingOk "conform-font-subset" s1
  else
    (s1, Except.error (conform_message_list tags s).2)

/-- `decode_patch(base, patch, patch_format)` with the external xdelta3
result as an oracle: VCDIFF (format 0) asserts a zero return code; any other
format is a test-harness failure with no conformance id. -/
def decode_patch (fmt : Nat) (returncode : Nat) (subsetBytes : List Nat)
    (s : Session) : Session × Except String (List Nat) :=
  if fmt = 0 then
    match assertThat (decide (returncode = 0)) "conform-response-valid-patch" s with
    | (s1, Except.ok _) => (s1, Except.ok subsetBytes)
    | (s1, Except.error e) => (s1, Except.error e)
  else (s, Except.error "unsupported-patch-format")

/-- `check_apply_patch_to(min_codepoints, additional ids)`: decode the
patch, check the subset's codepoints and checksum, then record that VCDIFF
support was confirmed. -/
def check_apply_patch_to (fmt : Nat) (returncode : Nat) (subsetBytes : List Nat)
    (fontCps : List Nat) (minCps : List Nat) (extraIds : List String)
    (shapingOk : Bool) (patchedChecksum : Nat) (s : Session) :
    Session × Except String Unit :=
  match decode_patch fmt returncode subsetBytes s with
  | (s1, Except.error e) => (s1, Except.error e)
  | (s1, Except.ok subset) =>
      match font_has_at_least_codepoints fontCps minCps extraIds shapingOk s1 with
      | (s2, Except.error e) => (s2, Except.error e)
      | (s2, Except.ok _) =>
          match patched_checksum_matches subset patchedChecksum s2 with
          | (s3, Except.error e) => (s3, Except.error e)
          | (s3, Except.ok _) => (tested "conform-vcdiff" s3, Except.ok ())

theorem tested_subset (tag : String) (s : Session) : s ⊆ tested tag s := by
  rw [tested]
  split
  · exact fun a ha => ha
  · exact fun a ha => List.mem_cons_of_mem _ ha

theorem tested_mem (tag : String) (s : Session) : tag ∈ tested tag s := by
  rw [tested]
  split
  · assumption
  · exact List.mem_cons_self _ _

theorem testedList_subset (tags : List String) : ∀ s : Session, s ⊆ testedList tags s := by
  induction tags with
  | nil => intro s; exact fun a ha => ha
  | cons t rest ih =>
      intro s
      exact fun a ha => ih (tested t s) (tested_subset t s ha)

theorem testedList_mem (tags : List String) :
    ∀ s : Session, ∀ t ∈ tags, t ∈ testedList tags s := by
  induction tags with
  | nil => intro s t ht; exact absurd ht (by simp)
  | cons u rest ih =>
      intro s t ht
      rcases List.mem_cons.mp ht with rfl | h
      · exact testedList_subset rest (tested t s) (tested_mem t s)
      · exact ih (tested u s) t h

theorem assertThat_fst (cond : Bool) (tag : String) (s : Session) :
    (assertThat cond tag s).1 = tested tag s := rfl

theorem assertThat_subset (cond : Bool) (tag : String) (s : Session) :
    s ⊆ (assertThat cond tag s).1 := tested_subset tag s

theorem assertThat_mem (cond : Bool) (tag : String) (s : Session) :
    tag ∈ (assertThat cond tag s).1 := tested_mem tag s

/-- `axis_interval_well_formed` only grows the session and always records
the start rule id (the end rule id is recorded whenever reached). -/
theorem axis_interval_well_formed_props (i : RawInterval) (s : Session) :
    s ⊆ (axis_interval_well_formed i s).1 ∧
    "conform-axis-interval-start" ∈ (axis_interval_well_formed i s).1 := by
  rw [axis_interval_well_formed]
  cases h : assertThat i.rstart.isSome "conform-axis-interval-start" s with
  | mk s1 r =>
      have hs1 : s1 = tested "conform-axis-interval-start" s := by
        rw [← assertThat_fst i.rstart.isSome "conform-axis-interval-start" s, h]
      cases r with
      | error e =>
          dsimp only
          rw [hs1]
          exact ⟨tested_subset _ s, tested_mem _ s⟩
      | ok u =>
          dsimp only
          cases he : i.rend with
          | none =>
              dsimp only
              rw [hs1]
              exact ⟨fun a ha => tested_subset _ _ (tested_subset _ s ha),
                     tested_subset _ _ (tested_mem _ s)⟩
          | some e =>
              dsimp only
              rw [assertThat_fst, hs1]
              exact ⟨fun a ha => tested_subset _ _ (tested_subset _ s ha),
                     tested_subset _ _ (tested_mem _ s)⟩

theorem intervals_well_formed_subset (l : List RawInterval) :
    ∀ s : Session, s ⊆ (intervals_well_formed l s).1 := by
  induction l with
  | nil => intro s; rw [intervals_well_formed]; exact fun a ha => ha
  | cons i rest ih =>
      intro s
      rw [intervals_well_formed]
      cases h : axis_interval_well_formed i s with
      | mk s1 r =>
          have hmono : s ⊆ s1 := by
            have h2 := (axis_interval_well_formed_props i s).1
            rw [h] at h2
            exact fun a ha => h2 ha
          cases r with
          | ok u => dsimp only; exact fun a ha => ih s1 (hmono ha)
          | error e => dsimp only; exact hmono

theorem disjoint_pairs_subset (l : List RawInterval) :
    ∀ s : Session, s ⊆ (disjoint_pairs l s).1 := by
  induction l with
  | nil => intro s; exact fun a ha => ha
  | cons a tail ih =>
      intro s
      match tail with
      | [] => exact fun x hx => hx
      | b :: rest =>
          rw [disjoint_pairs]
          cases ha : a.rend with
          | none => dsimp only; exact fun x hx => hx
          | some ae =>
              dsimp only
              cases hb : b.rstart with
              | none => dsimp only; exact fun x hx => hx
              | some bs =>
                  dsimp only
                  cases h : assertThat (decide (ae < bs)) "conform-axis-space-disjoint" s with
                  | mk s1 r =>
                      have hmono : s ⊆ s1 := by
                        have h1 : s1 = tested "conform-axis-space-disjoint" s := by
                          rw [← assertThat_fst (decide (ae < bs)) "conform-axis-space-disjoint" s, h]
                        rw [h1]
                        exact tested_subset _ s
                      cases r with
                      | ok u => dsimp only; exact fun x hx => ih s1 (hmono hx)
                      | error e => dsimp only; exact hmono

theorem axis_space_well_formed_subset (space : List (String × List RawInterval)) :
    ∀ s : Session, s ⊆ (axis_space_well_formed space s).1 := by
  induction space with
  | nil => intro s; rw [axis_space_well_formed]; exact fun a ha => ha
  | cons p rest ih =>
      intro s
      obtain ⟨tag, intervals⟩ := p
      rw [axis_space_well_formed]
      cases h : intervals_well_formed intervals s with
      | mk s1 r =>
          have hmono : s ⊆ s1 := by
            have h2 := intervals_well_formed_subset intervals s
            rw [h] at h2
            exact fun a ha => h2 ha
          cases r with
          | error e => dsimp only; exact hmono
          | ok u =>
              dsimp only
              split
              · exact fun a ha => tested_subset _ s1 (hmono ha)
              · cases h2 : disjoint_pairs
                    (intervals.insertionSort (fun a b => a.rstart.getD 0 ≤ b.rstart.getD 0)) s1 with
                | mk s2 r2 =>
                    have hmono2 : s1 ⊆ s2 := by
                      have h3 := disjoint_pairs_subset
                        (intervals.insertionSort (fun a b => a.rstart.getD 0 ≤ b.rstart.getD 0)) s1
                      rw [h2] at h3
                      exact fun a ha => h3 ha
                    cases r2 with
                    | error e => dsimp only; exact fun a ha => hmono2 (hmono ha)
                    | ok u2 => dsimp only; exact fun a ha => ih s2 (hmono2 (hmono ha))

theorem is_error_400_fst (status : Nat) (extra : Option String) (s : Session) :
    (is_error_400 status extra s).1 =
      testedList ("conform-reject-malformed-request" ::
        (match extra with | some t => [t] | none => [])) s := rfl

theorem is_error_400_props (status : Nat) (extra : Option String) (s : Session) :
    s ⊆ (is_error_400 status extra s).1 ∧
    "conform-reject-malformed-request" ∈ (is_error_400 status extra s).1 ∧
    (∀ t, extra = some t → t ∈ (is_error_400 status extra s).1) := by
  rw [is_error_400_fst]
  refine ⟨testedList_subset _ s, testedList_mem _ s _ (by simp), ?_⟩
  intro t ht
  rw [ht]
  exact testedList_mem _ s t (by simp)

theorem font_fst (fontCps subset : List Nat) (extraIds : List String) (shapingOk : Bool)
    (s : Session) :
    (font_has_at_least_codepoints fontCps subset extraIds shapingOk s).1 =
      if subset.all (fun c => decide (c ∈ fontCps)) then
        tested "conform-font-subset"
          (testedList ("conform-response-subset" :: extraIds) s)
      else testedList ("conform-response-subset" :: extraIds) s := by
  rw [font_has_at_least_codepoints]
  split
  · rfl
  · rfl

theorem font_has_at_least_codepoints_props (fontCps subset : List Nat)
    (extraIds : List String) (shapingOk : Bool) (s : Session) :
    s ⊆ (font_has_at_least_codepoints fontCps subset extraIds shapingOk s).1 ∧
    "conform-response-subset" ∈ (font_has_at_least_codepoints fontCps subset extraIds shapingOk s).1 ∧
    (∀ t ∈ extraIds, t ∈ (font_has_at_least_codepoints fontCps subset extraIds shapingOk s).1) := by
  rw [font_fst]
  split
  · refine ⟨fun a ha => tested_subset _ _ (testedList_subset _ s ha),
      tested_subset _ _ (testedList_mem _ s _ (by simp)), ?_⟩
    intro t ht
    exact tested_subset _ _ (testedList_mem _ s t (by simp [ht]))
  · refine ⟨testedList_subset _ s, testedList_mem _ s _ (by simp), ?_⟩
    intro t ht
    exact testedList_mem _ s t (by simp [ht])

theorem font_ok_mem (fontCps subset : List Nat) (extraIds : List String) (shapingOk : Bool)
    (s : Session) :
    ∀ u, (font_has_at_least_codepoints fontCps subset extraIds shapingOk s).2 = Except.ok u →
      "conform-font-subset" ∈ (font_has_at_least_codepoints fontCps subset extraIds shapingOk s).1 := by
  intro u hu
  by_cases hcond : (subset.all (fun c => decide (c ∈ fontCps))) = true
  · rw [font_fst, if_pos hcond]
    exact tested_mem _ _
  · exfalso
    rw [font_has_at_least_codepoints] at hu
    rw [if_neg hcond] at hu
    exact absurd hu (by simp)

theorem decode_patch_props (fmt returncode : Nat) (subsetBytes : List Nat) (s : Session) :
    s ⊆ (decode_patch fmt returncode subsetBytes s).1 ∧
    (∀ v, (decode_patch fmt returncode subsetBytes s).2 = Except.ok v →
      "conform-response-valid-patch" ∈ (decode_patch fmt returncode subsetBytes s).1) := by
  rw [decode_patch]
  split
  · cases h : assertThat (decide (returncode = 0)) "conform-response-valid-patch" s with
    | mk s1 r =>
        have hs1 : s1 = tested "conform-response-valid-patch" s := by
          rw [← assertThat_fst (decide (returncode = 0)) "conform-response-valid-patch" s, h]
        cases r with
        | ok u =>
            dsimp only
            rw [hs1]
            exact ⟨tested_subset _ s, fun v _ => tested_mem _ s⟩
        | error e =>
            dsimp only
            rw [hs1]
            exact ⟨tested_subset _ s, fun v hv => absurd hv (by simp)⟩
  · exact ⟨fun a ha => ha, fun v hv => absurd hv (by simp)⟩

theorem check_apply_patch_to_props (fmt returncode : Nat) (subsetBytes : List Nat)
    (fontCps minCps : List Nat) (extraIds : List String) (shapingOk : Bool)
    (patchedChecksum : Nat) (s : Session) :
    s ⊆ (check_apply_patch_to fmt returncode subsetBytes fontCps minCps extraIds
        shapingOk patchedChecksum s).1 ∧
    ((check_apply_patch_to fmt returncode subsetBytes fontCps minCps extraIds
        shapingOk patchedChecksum s).2 = Except.ok () →
      "conform-response-valid-patch" ∈ (check_apply_patch_to fmt returncode subsetBytes
          fontCps minCps extraIds shapingOk patchedChecksum s).1 ∧
      "conform-response-subset" ∈ (check_apply_patch_to fmt returncode subsetBytes
          fontCps minCps extraIds shapingOk patchedChecksum s).1 ∧
      "conform-font-subset" ∈ (check_apply_patch_to fmt returncode subsetBytes
          fontCps minCps extraIds shapingOk patchedChecksum s).1 ∧
      "conform-response-patched-checksum" ∈ (check_apply_patch_to fmt returncode subsetBytes
          fontCps minCps extraIds shapingOk patchedChecksum s).1 ∧
      "conform-vcdiff" ∈ (check_apply_patch_to fmt returncode subsetBytes
          fontCps minCps extraIds shapingOk patchedChecksum s).1) := by
  rw [check_apply_patch_to]
  cases h1 : decode_patch fmt returncode subsetBytes s with
  | mk s1 r1 =>
      obtain ⟨hm1, hok1⟩ := decode_patch_props fmt returncode subsetBytes s
      rw [h1] at hm1 hok1
      cases r1 with
      | error e => dsimp only; exact ⟨fun a ha => hm1 ha, fun hv => absurd hv (by simp)⟩
      | ok subset =>
          dsimp only
          have hvp : "conform-response-valid-patch" ∈ s1 := hok1 subset rfl
          cases h2 : font_has_at_least_codepoints fontCps minCps extraIds shapingOk s1 with
          | mk s2 r2 =>
              obtain ⟨hm2, hsub2, _⟩ :=
                font_has_at_least_codepoints_props fontCps minCps extraIds shapingOk s1
              rw [h2] at hm2 hsub2
              cases r2 with
              | error e =>
                  dsimp only
                  exact ⟨fun a ha => hm2 (hm1 ha), fun hv => absurd hv (by simp)⟩
              | ok u2 =>
                  dsimp only
                  have hfs : "conform-font-subset" ∈ s2 := by
                    have h4 := font_ok_mem fontCps minCps extraIds shapingOk s1 u2
                      (by rw [h2])
                    rw [h2] at h4
                    exact h4
                  cases h3 : patched_checksum_matches subset patchedChecksum s2 with
                  | mk s3 r3 =>
                      have hs3 : s3 = tested "conform-response-patched-checksum" s2 := by
                        rw [← assertThat_fst (decide (compute subset = patchedChecksum))
                          "conform-response-patched-checksum" s2]
                        rw [show (assertThat (decide (compute subset = patchedChecksum))
                          "conform-response-patched-checksum" s2) =
                            patched_checksum_matches subset patchedChecksum s2 from rfl, h3]
                      have hm3 : s2 ⊆ s3 := by
                        rw [hs3]; exact tested_subset _ s2
                      cases r3 with
                      | error e =>
                          dsimp only
                          exact ⟨fun a ha => hm3 (hm2 (hm1 ha)), fun hv => absurd hv (by simp)⟩
                      | ok u3 =>
                          dsimp only
                          refine ⟨fun a ha => tested_subset _ s3 (hm3 (hm2 (hm1 ha))), fun _ => ?_⟩
                          refine ⟨tested_subset _ s3 (hm3 (hm2 hvp)),
                            tested_subset _ s3 (hm3 hsub2),
                            tested_subset _ s3 (hm3 hfs), ?_, tested_mem _ s3⟩
                          rw [hs3]
                          exact tested_subset _ _ (tested_mem _ s2)

/-- C5: refuted — `axis_space_well_formed` does NOT validate every tag's
interval list. The `return` taken when a tag's sorted interval list has at
most one element exits the whole method, so later tags are skipped: the
concrete space below maps "a" to a single interval and "b" to an interval
with no start key; the whole check succeeds even though the "b" interval on
its own fails `axis_interval_well_formed`. -/
theorem C5_axis_space_skips_later_tags :
    (axis_space_well_formed
        [("a", [RawInterval.mk (some 0) none]),
         ("b", [RawInterval.mk none none])] []).2 = Except.ok () ∧
    ("b", [RawInterval.mk none none]) ∈
        [("a", [RawInterval.mk (some 0) none]),
         ("b", [RawInterval.mk none none])] ∧
    (axis_interval_well_formed (RawInterval.mk none none) []).2 =
        Except.error "conform-axis-interval-start" :=
  ⟨rfl, by simp, rfl⟩

/-- C8: every modeled conformance check only adds to `tested_ids` (no check
removes ids) and records the rule id(s) it exercises before its assertion
can fail; in particular a completed `check_apply_patch_to` has recorded the
ids of every embedded check. -/
theorem C8_tested_ids_recorded :
    (∀ (tag : String) (s : Session), s ⊆ tested tag s ∧ tag ∈ tested tag s) ∧
    (∀ (tags : List String) (s : Session),
        s ⊆ testedList tags s ∧ ∀ t ∈ tags, t ∈ testedList tags s) ∧
    (∀ (cond : Bool) (tag : String) (s : Session),
        s ⊆ (assertThat cond tag s).1 ∧ tag ∈ (assertThat cond tag s).1) ∧
    (∀ (i : RawInterval) (s : Session),
        s ⊆ (axis_interval_well_formed i s).1 ∧
        "conform-axis-interval-start" ∈ (axis_interval_well_formed i s).1) ∧
    (∀ (space : List (String × List RawInterval)) (s : Session),
        s ⊆ (axis_space_well_formed space s).1) ∧
    (∀ (status : Nat) (extra : Option String) (s : Session),
        s ⊆ (is_error_400 status extra s).1 ∧
        "conform-reject-malformed-request" ∈ (is_error_400 status extra s).1 ∧
        ∀ t, extra = some t → t ∈ (is_error_400 status extra s).1) ∧
    (∀ (fmt : Nat) (fmts : List Nat) (s : Session),
        s ⊆ (format_in fmt fmts s).1 ∧
        "conform-response-patch-format" ∈ (format_in fmt fmts s).1) ∧
    (∀ (bs : List Nat) (s : Session),
        s ⊆ (integer_list_well_formed bs s).1 ∧
        "conform-uintbase128-illegal" ∈ (integer_list_well_formed bs s).1) ∧
    (∀ (d : List Nat) (c : Nat) (s : Session),
        s ⊆ (patched_checksum_matches d c s).1 ∧
        "conform-response-patched-checksum" ∈ (patched_checksum_matches d c s).1) ∧
    (∀ (fontCps minCps : List Nat) (extraIds : List String) (sh : Bool) (s : Session),
        s ⊆ (font_has_at_least_codepoints fontCps minCps extraIds sh s).1 ∧
        "conform-response-subset" ∈ (font_has_at_least_codepoints fontCps minCps extraIds sh s).1 ∧
        ∀ t ∈ extraIds, t ∈ (font_has_at_least_codepoints fontCps minCps extraIds sh s).1) ∧
    (∀ (fmt rc : Nat) (sb fontCps minCps : List Nat) (extraIds : List String)
        (sh : Bool) (pc : Nat) (s : Session),
        s ⊆ (check_apply_patch_to fmt rc sb fontCps minCps extraIds sh pc s).1 ∧
        ((check_apply_patch_to fmt rc sb fontCps minCps extraIds sh pc s).2 = Except.ok () →
          "conform-response-valid-patch" ∈
            (check_apply_patch_to fmt rc sb fontCps minCps extraIds sh pc s).1 ∧
          "conform-response-subset" ∈
            (check_apply_patch_to fmt rc sb fontCps minCps extraIds sh pc s).1 ∧
          "conform-font-subset" ∈
            (check_apply_patch_to fmt rc sb fontCps minCps extraIds sh pc s).1 ∧
          "conform-response-patched-checksum" ∈
            (check_apply_patch_to fmt rc sb fontCps minCps extraIds sh pc s).1 ∧
          "conform-vcdiff" ∈
            (check_apply_patch_to fmt rc sb fontCps minCps extraIds sh pc s).1)) := by
  refine ⟨fun tag s => ⟨tested_subset tag s, tested_mem tag s⟩,
    fun tags s => ⟨testedList_subset tags s, testedList_mem tags s⟩,
    fun cond tag s => ⟨assertThat_subset cond tag s, assertThat_mem cond tag s⟩,
    fun i s => axis_interval_well_formed_props i s,
    fun space s => axis_space_well_formed_subset space s,
    fun status extra s => is_error_400_props status extra s,
    fun fmt fmts s => ⟨assertThat_subset _ _ s, assertThat_mem _ _ s⟩,
    fun bs s => ⟨assertThat_subset _ _ s, assertThat_mem _ _ s⟩,
    fun d c s => ⟨assertThat_subset _ _ s, assertThat_mem _ _ s⟩,
    fun fontCps minCps extraIds sh s =>
      font_has_at_least_codepoints_props fontCps minCps extraIds sh s,
    fun fmt rc sb fontCps minCps extraIds sh pc s =>
      check_apply_patch_to_props fmt rc sb fontCps minCps extraIds sh pc s⟩

/-- Witness for C8 at concrete sessions: a failing 400-check still records
its rule id, and a passing `check_apply_patch_to` records all five ids. -/
theorem C8_witness :
    "conform-reject-malformed-request" ∈ (is_error_400 200 none []).1 ∧
    "conform-vcdiff" ∈
      (check_apply_patch_to 0 0 [] [] [] [] true (compute []) []).1 :=
  ⟨(C8_tested_ids_recorded.2.2.2.2.2.1 200 none []).2.1,
    ((C8_tested_ids_recorded.2.2.2.2.2.2.2.2.2.2 0 0 [] [] [] [] true (compute []) []).2
      (by rfl)).2.2.2.2⟩

end IFT
